import Mathlib

/-!
# Verification of the WFQ packet scheduler (`wfq.cpp` and variants)

This file is a shallow embedding of the repository's weighted-fair-queueing
scheduler.  The authoritative program is the final version contained in
`wfq.cpp` (the one documented in the repository README: `PacketInfo::parse`,
`ChannelInfo`, `get_or_create_channel`, `ActiveChannelEntry`,
`mark_channel_active`, `read_batch_with_timeout`, `read_batch`,
`read_with_timeout`, `main`).  The exploratory variant with the
virtual-time recurrence (the `PacketReader`/`last_finish` program) is
embedded separately in namespace `P3`.

Modelling conventions:
* C++ `double` is modelled as `ℚ`.  Every weight occurring in the concrete
  scenarios (1.0, 2.0, 4.0) and every division appearing there is exactly
  representable in binary64, so rational and double arithmetic agree on all
  values this file computes with; the structural theorems (FIFO, heap shape,
  timestamp monotonicity) do not depend on the numeric values at all.
* `uint64_t` is modelled as `Nat`, with wrap-around `% 2 ^ 64` made explicit
  in the parser (the only place the width is observable).
* `std::priority_queue` is modelled as a list together with a pop operation
  that removes a maximal element w.r.t. the source's `operator<`; since each
  channel has at most one live entry and entries carry the channel index,
  the order is total on the entries present, so `top()` is deterministic.
* the loops (`read_batch_with_timeout`'s `for`, `read_with_timeout`'s
  `while`, `main`'s `while`) are embedded as structurally recursive
  functions on an explicit fuel; the wrappers supply fuel that provably
  dominates the loop's runtime, so the embedding computes by evaluation.
-/

/-! ## Section 1: the arrival parser (`PacketInfo::parse` / `sscanf`)

`sscanf(line, "%llu %31s %31s %31s %31s %llu %lf", ...)` is modelled at the
character level: each conversion skips whitespace and then matches greedily,
and the call reports how many conversions succeeded.  `%31s` reads at most
31 non-whitespace characters (a longer token is split).  `%llu` accepts an
optional sign and wraps modulo `2 ^ 64`.  `%lf` is modelled for decimal
literals (optional sign, digits with optional fraction and exponent); the
exotic `strtod` forms (hex floats, `inf`, `nan`) are outside the model.
-/

/-- The whitespace set of `isspace` in the C locale. -/
def isWs (c : Char) : Bool :=
  c = ' ' || c = '\t' || c = '\n' || c = '\x0d' || c = '\x0b' || c = '\x0c'

/-- Numeric value of a digit string. -/
def digitsToNat (ds : List Char) : Nat :=
  ds.foldl (fun a c => 10 * a + (c.toNat - 48)) 0

/-- `2^64`, the modulus of `uint64_t`. -/
def U64 : Nat := 2 ^ 64

/-- One `%llu` conversion: skip whitespace, optional sign, then a nonempty
digit run; the value wraps modulo `2 ^ 64` (negative input wraps as in
`strtoull`).  Returns the value and the unconsumed rest. -/
def scanULL (cs : List Char) : Option (Nat × List Char) :=
  let cs1 := cs.dropWhile isWs
  let signAndRest : Bool × List Char :=
    match cs1 with
    | '-' :: r => (true, r)
    | '+' :: r => (false, r)
    | _ => (false, cs1)
  let neg := signAndRest.1
  let cs2 := signAndRest.2
  let ds := cs2.takeWhile Char.isDigit
  if ds.isEmpty then none
  else
    let v := digitsToNat ds % U64
    some (if neg then (U64 - v) % U64 else v, cs2.dropWhile Char.isDigit)

/-- One `%31s` conversion: skip whitespace, then read at most 31
non-whitespace characters (failing only at end of input).  A token longer
than 31 characters is split: the rest of it is left unconsumed. -/
def scanS31 (cs : List Char) : Option (String × List Char) :=
  let cs1 := cs.dropWhile isWs
  let tok := (cs1.takeWhile (fun c => !isWs c)).take 31
  if tok.isEmpty then none else some (String.mk tok, cs1.drop tok.length)

/-- One `%lf` conversion for decimal literals: skip whitespace, optional
sign, digits with optional fractional part (at least one digit in the
mantissa), optional exponent (which, if introduced by `e`/`E`, must contain
digits — otherwise the whole conversion fails, as `scanf` cannot back up).
The value is returned as an exact rational. -/
def scanLF (cs : List Char) : Option (ℚ × List Char) :=
  let cs1 := cs.dropWhile isWs
  let signAndRest : Bool × List Char :=
    match cs1 with
    | '-' :: r => (true, r)
    | '+' :: r => (false, r)
    | _ => (false, cs1)
  let neg := signAndRest.1
  let cs2 := signAndRest.2
  let ip := cs2.takeWhile Char.isDigit
  let cs3 := cs2.dropWhile Char.isDigit
  let fracAndRest : List Char × List Char :=
    match cs3 with
    | '.' :: r => (r.takeWhile Char.isDigit, r.dropWhile Char.isDigit)
    | _ => ([], cs3)
  let fp := fracAndRest.1
  let cs4 := fracAndRest.2
  if ip.isEmpty && fp.isEmpty then none
  else
    let mant : ℚ := (digitsToNat ip : ℚ) + (digitsToNat fp : ℚ) / (10 ^ fp.length : ℚ)
    let mant := if neg then -mant else mant
    match cs4 with
    | c :: r =>
      if c = 'e' || c = 'E' then
        let esignAndRest : Bool × List Char :=
          match r with
          | '-' :: r2 => (true, r2)
          | '+' :: r2 => (false, r2)
          | _ => (false, r)
        let eneg := esignAndRest.1
        let r2 := esignAndRest.2
        let ed := r2.takeWhile Char.isDigit
        if ed.isEmpty then none
        else
          let e := digitsToNat ed
          some (if eneg then mant / (10 ^ e : ℚ) else mant * (10 ^ e : ℚ),
                r2.dropWhile Char.isDigit)
      else some (mant, cs4)
    | [] => some (mant, [])

/-- The first six conversions of the `sscanf` format
`"%llu %31s %31s %31s %31s %llu %lf"`: arrival time, the four connection
tokens, and the length.  `none` means fewer than six conversions succeed
(which is the abort condition of `PacketInfo::parse`). -/
def scan6 (cs : List Char) :
    Option (Nat × String × String × String × String × Nat × List Char) :=
  match scanULL cs with
  | none => none
  | some (t, r1) =>
    match scanS31 r1 with
    | none => none
    | some (sadd, r2) =>
      match scanS31 r2 with
      | none => none
      | some (sport, r3) =>
        match scanS31 r3 with
        | none => none
        | some (dadd, r4) =>
          match scanS31 r4 with
          | none => none
          | some (dport, r5) =>
            match scanULL r5 with
            | none => none
            | some (len, r6) => some (t, sadd, sport, dadd, dport, len, r6)

/-- A parsed arrival, mirroring the `PacketInfo` class of the final
`wfq.cpp`: arrival time, connection string, length, and the optional
explicit weight (`std::optional<double> weight`). -/
structure PacketInfo where
  time : Nat
  connection : String
  length : Nat
  weight : Option ℚ
deriving DecidableEq, Repr

/-- The connection string `std::format("{} {} {} {}", sadd, sport, dadd,
dport)`: the four tokens joined by single spaces. -/
def mkConnection (sadd sport dadd dport : String) : String :=
  sadd ++ " " ++ sport ++ " " ++ dadd ++ " " ++ dport

instance {ε α : Type} [DecidableEq ε] [DecidableEq α] : DecidableEq (Except ε α) :=
  fun a b =>
    match a, b with
    | Except.ok x, Except.ok y =>
      if h : x = y then isTrue (h ▸ rfl)
      else isFalse (fun hc => h (Except.ok.inj hc))
    | Except.error x, Except.error y =>
      if h : x = y then isTrue (h ▸ rfl)
      else isFalse (fun hc => h (Except.error.inj hc))
    | Except.ok _, Except.error _ => isFalse (fun hc => Except.noConfusion hc)
    | Except.error _, Except.ok _ => isFalse (fun hc => Except.noConfusion hc)

/-- `PacketInfo::parse`: run the seven conversions; six matches give a
packet without explicit weight, seven give one with it, anything else is
the fatal `"bad input line"` diagnostic (the process aborts). -/
def parsePacket (line : String) : Except String PacketInfo :=
  match scan6 line.data with
  | none => Except.error ("bad input line: " ++ line)
  | some (t, sadd, sport, dadd, dport, len, r6) =>
    match scanLF r6 with
    | some (w, _) =>
      Except.ok { time := t, connection := mkConnection sadd sport dadd dport,
                  length := len, weight := some w }
    | none =>
      Except.ok { time := t, connection := mkConnection sadd sport dadd dport,
                  length := len, weight := none }

/-! ## Section 2: output formatting (`operator<<` on `PacketInfo`) -/

/-- Rounding of a rational to the nearest integer (halves up):
`⌊q + 1/2⌋`, computed as a floor division on numerator and denominator. -/
def ratRound (q : ℚ) : ℤ :=
  Int.fdiv (2 * q.num + (q.den : ℤ)) (2 * (q.den : ℤ))

/-- `std::format("{:.2f}", w)` for the nonnegative weights this program
prints: the value rounded to two fractional digits.  All scenario weights
are integer multiples of `1/100`, where no rounding occurs and the binary64
and rational values agree (the half-up versus half-even difference of this
model is visible only at exact decimal half-cents, which binary64 cannot
hold). -/
def formatFixed2 (q : ℚ) : String :=
  let n := (ratRound (q * 100)).toNat
  let frac := n % 100
  toString (n / 100) ++ "." ++ (if frac < 10 then "0" else "") ++ toString frac

/-- Printing a packet: `time connection length`, with ` weight` (two
fractional digits) appended iff the weight was explicit. -/
def formatPacket (p : PacketInfo) : String :=
  toString p.time ++ " " ++ p.connection ++ " " ++ toString p.length ++
    (match p.weight with
     | some w => " " ++ formatFixed2 w
     | none => "")

/-- One output line of `main`: `τ: packet`. -/
def formatLine (e : Nat × PacketInfo) : String :=
  toString e.1 ++ ": " ++ formatPacket e.2

/-! ## Section 3: the scheduler state (final `wfq.cpp`)

`channelsIndexMap` is an `unordered_map<string, ChannelInfo>`; entries are
never erased and `index` is assigned as `channelsIndexMap.size()` at
insertion, so the map is modelled as the association list of its entries in
insertion order — a channel's position in the list equals its `index`.  The
heap entry's `ChannelInfo *channel` (a stable address into the map) is
modelled as that index. -/

/-- `ChannelInfo` of the final `wfq.cpp`: index, current weight, pending
FIFO.  (The connection string is the key under which the channel is stored,
kept alongside in `Sched.channels`.) -/
structure ChannelInfo where
  index : Nat
  weight : ℚ
  q : List PacketInfo
deriving DecidableEq, Repr

/-- `ActiveChannelEntry`: the channel (by its index, standing for the
stable pointer) and the priority snapshot taken when it was pushed. -/
structure ActiveChannelEntry where
  chIdx : Nat
  prio : ℚ
deriving DecidableEq, Repr

/-- `ActiveChannelEntry::operator<`: compares priority snapshots first
(greater priority value = less in the max-heap order, so the heap pops the
smallest priority), ties broken by greater channel index. -/
def entryLT (a b : ActiveChannelEntry) : Bool :=
  if a.prio ≠ b.prio then decide (b.prio < a.prio) else decide (b.chIdx < a.chIdx)

/-- A maximal element w.r.t. `entryLT` of `b :: es` (what
`std::priority_queue::top()` returns), scanning left to right. -/
def heapBest : ActiveChannelEntry → List ActiveChannelEntry → ActiveChannelEntry
  | b, [] => b
  | b, e :: es => heapBest (if entryLT b e then e else b) es

/-- Remove the first occurrence of `t` from the list. -/
def removeFirst : List ActiveChannelEntry → ActiveChannelEntry → List ActiveChannelEntry
  | [], _ => []
  | e :: es, t => if e = t then es else e :: removeFirst es t

/-- `top()` and `pop()` of the priority queue combined: the popped entry
and the remaining entries.  Deterministic because each live channel has at
most one entry, so `entryLT` is total on the entries present. -/
def popTop? (h : List ActiveChannelEntry) :
    Option (ActiveChannelEntry × List ActiveChannelEntry) :=
  match h with
  | [] => none
  | e :: es =>
    let b := heapBest e es
    some (b, removeFirst (e :: es) b)

/-- The global state of the final `wfq.cpp`: the channel map (in insertion
order), the ready heap `active_channels`, the one-packet look-ahead buffer
`next_packet`, the not-yet-read arrivals of stdin (`pending`), `main`'s
`time`, and the lines printed so far (as τ/packet pairs). -/
structure Sched where
  channels : List (String × ChannelInfo)
  heap : List ActiveChannelEntry
  lookahead : Option PacketInfo
  pending : List PacketInfo
  time : Nat
  log : List (Nat × PacketInfo)
deriving DecidableEq, Repr

/-- The arrivals still inside the reader: look-ahead buffer first, then the
unread remainder of stdin. -/
def unread (s : Sched) : List PacketInfo :=
  s.lookahead.toList ++ s.pending

/-- Replace the element at one position of a list. -/
def updateAt {α : Type} : List α → Nat → (α → α) → List α
  | [], _, _ => []
  | x :: xs, 0, f => f x :: xs
  | x :: xs, n + 1, f => x :: updateAt xs n f

/-- Position of the channel stored under a connection key (the
`unordered_map::find` of the model). -/
def lookupIdx : List (String × ChannelInfo) → String → Option Nat
  | [], _ => none
  | x :: xs, conn => if x.1 = conn then some 0 else (lookupIdx xs conn).map (· + 1)

/-- `get_or_create_channel`: look the connection up; if absent, insert a
fresh channel with `index = channelsIndexMap.size()`, default weight 1 and
an empty queue.  Returns the channel's index (its stable handle). -/
def getOrCreate (s : Sched) (conn : String) : Nat × Sched :=
  match lookupIdx s.channels conn with
  | some i => (i, s)
  | none =>
    (s.channels.length,
     { s with channels :=
        s.channels ++ [(conn, { index := s.channels.length, weight := 1, q := [] })] })

/-- `mark_channel_active`: push an entry for channel `i` with priority
`Q.front().length / weight` (the snapshot).  The source asserts the queue
is non-empty; on an empty queue (never reached) this is a no-op. -/
def markChannelActive (s : Sched) (i : Nat) : Sched :=
  match s.channels[i]? with
  | some c =>
    match c.2.q with
    | p :: _ =>
      { s with heap := { chIdx := i, prio := (p.length : ℚ) / c.2.weight } :: s.heap }
    | [] => s
  | none => s

/-- The body of `read_batch_with_timeout`'s loop for one consumed arrival:
`get_or_create_channel`, `Q.push`, the explicit-weight update, and
`mark_channel_active` iff the queue now has exactly one element. -/
def processArrival (s : Sched) (p : PacketInfo) : Sched :=
  let r := getOrCreate s p.connection
  let i := r.1
  let s1 := r.2
  let pushQ : String × ChannelInfo → String × ChannelInfo :=
    fun x => (x.1, { x.2 with q := x.2.q ++ [p] })
  let s2 := { s1 with channels := updateAt s1.channels i pushQ }
  let s3 :=
    match p.weight with
    | some w =>
      let setW : String × ChannelInfo → String × ChannelInfo :=
        fun x => (x.1, { x.2 with weight := w })
      { s2 with channels := updateAt s2.channels i setW }
    | none => s2
  match s3.channels[i]? with
  | some c => if c.2.q.length = 1 then markChannelActive s3 i else s3
  | none => s3

/-- The loop of `read_batch_with_timeout`, on explicit fuel.  Each
iteration fills the look-ahead from input (breaking at EOF), breaks if the
look-ahead's time exceeds `maxTime`, and otherwise consumes it, shrinking
`maxTime` to the consumed arrival's time (which makes the call read one
same-time batch).  Returns the number of arrivals consumed. -/
def rbwtFuel : Nat → Nat → Sched → Nat × Sched
  | 0, _, s => (0, s)
  | fuel + 1, maxTime, s =>
    match s.lookahead with
    | none =>
      match s.pending with
      | [] => (0, s)
      | p :: rest => rbwtFuel fuel maxTime { s with lookahead := some p, pending := rest }
    | some p =>
      if maxTime < p.time then (0, s)
      else
        let r := rbwtFuel fuel (min maxTime p.time) (processArrival { s with lookahead := none } p)
        (r.1 + 1, r.2)

/-- `read_batch_with_timeout`: the loop with enough fuel (each iteration
either moves one packet out of `pending` or consumes the look-ahead, so
`2·|pending| + 2` iterations always reach a break). -/
def readBatchWithTimeout (maxTime : Nat) (s : Sched) : Nat × Sched :=
  rbwtFuel (2 * s.pending.length + 2) maxTime s

/-- `read_batch()` = `read_batch_with_timeout(UINT64_MAX)`. -/
def readBatch (s : Sched) : Nat × Sched :=
  readBatchWithTimeout (U64 - 1) s

/-- The loop of `read_with_timeout`, on explicit fuel: repeat
`read_batch_with_timeout(max_time)` until it consumes zero, summing the
counts. -/
def rwtFuel : Nat → Nat → Sched → Nat × Sched
  | 0, _, s => (0, s)
  | fuel + 1, maxTime, s =>
    let r := readBatchWithTimeout maxTime s
    if r.1 = 0 then (0, r.2)
    else
      let r2 := rwtFuel fuel maxTime r.2
      (r.1 + r2.1, r2.2)

/-- `read_with_timeout`: the loop with enough fuel (every iteration that
does not break consumes at least one arrival). -/
def readWithTimeout (maxTime : Nat) (s : Sched) : Nat × Sched :=
  rwtFuel ((unread s).length + 1) maxTime s

/-- The arrival time of the front packet of the channel at the heap's top
(`channels[top].Q.front().time`), when everything is in place. -/
def topPacketTime (s : Sched) : Option Nat :=
  match popTop? s.heap with
  | none => none
  | some t =>
    match s.channels[t.1.chIdx]? with
    | none => none
    | some c =>
      match c.2.q with
      | [] => none
      | p :: _ => some p.time

/-- Result of one iteration of `main`'s loop: continue with a new state,
terminate normally (`break` on empty input), or hit a state the C++ leaves
undefined (empty heap top / missing channel / empty queue front — proved
unreachable from the initial state). -/
inductive Outcome where
  | next (s : Sched)
  | done (s : Sched)
  | stuck (s : Sched)
deriving DecidableEq, Repr

/-- The service part of `main`'s loop body: pop the top entry, pop its
channel's front packet, print it at the current `time`, advance `time` by
the packet's length, re-push the channel if its queue is still non-empty,
then absorb arrivals with `read_with_timeout(time)`. -/
def emitPhase (s : Sched) : Outcome :=
  match popTop? s.heap with
  | none => Outcome.stuck s
  | some t =>
    match s.channels[t.1.chIdx]? with
    | none => Outcome.stuck s
    | some c =>
      match c.2.q with
      | [] => Outcome.stuck s
      | p :: qrest =>
        let popQ : String × ChannelInfo → String × ChannelInfo :=
          fun x => (x.1, { x.2 with q := qrest })
        let s1 := { s with heap := t.2, channels := updateAt s.channels t.1.chIdx popQ }
        let s2 := { s1 with log := s1.log ++ [(s1.time, p)], time := s1.time + p.length }
        let s3 := if qrest.isEmpty then s2 else markChannelActive s2 t.1.chIdx
        Outcome.next (readWithTimeout s3.time s3).2

/-- One iteration of `main`'s `while (true)` loop: if the heap is empty,
`read_batch()` (terminating on zero) and fast-forward `time` to the top
channel's front arrival time; then the service part. -/
def mainStep (s : Sched) : Outcome :=
  if s.heap.isEmpty then
    let r := readBatch s
    if r.1 = 0 then Outcome.done r.2
    else
      match topPacketTime r.2 with
      | none => Outcome.stuck r.2
      | some t => emitPhase { r.2 with time := t }
  else emitPhase s

/-- How a bounded run of `main` ended. -/
inductive RunStatus where
  | finished
  | stuck
  | fuelOut
deriving DecidableEq, Repr

/-- Run `main`'s loop for at most `fuel` iterations. -/
def run : Nat → Sched → Sched × RunStatus
  | 0, s => (s, RunStatus.fuelOut)
  | fuel + 1, s =>
    match mainStep s with
    | Outcome.done s1 => (s1, RunStatus.finished)
    | Outcome.stuck s1 => (s1, RunStatus.stuck)
    | Outcome.next s1 => run fuel s1

/-- The state at program start: empty map, empty heap, empty look-ahead,
the whole arrival trace unread, `time = 0`, nothing printed. -/
def initSched (arrivals : List PacketInfo) : Sched :=
  { channels := [], heap := [], lookahead := none, pending := arrivals,
    time := 0, log := [] }

/-! Projections used by the statements. -/

/-- The pending queue of the channel of a connection (empty if the
connection has no channel yet). -/
def queueOf (s : Sched) (conn : String) : List PacketInfo :=
  match lookupIdx s.channels conn with
  | some i =>
    match s.channels[i]? with
    | some c => c.2.q
    | none => []
  | none => []

/-- The packets emitted so far that belong to a connection, in emission
order. -/
def emittedOf (s : Sched) (conn : String) : List PacketInfo :=
  (s.log.map Prod.snd).filter (fun p => p.connection == conn)

/-- The arrivals of a connection still inside the reader. -/
def unreadOf (s : Sched) (conn : String) : List PacketInfo :=
  (unread s).filter (fun p => p.connection == conn)

/-- Where every packet of a connection lives: emitted, then queued, then
unread.  Each scheduler operation preserves this sequence, which is what
makes per-flow FIFO hold. -/
def flowTrace (s : Sched) (conn : String) : List PacketInfo :=
  emittedOf s conn ++ queueOf s conn ++ unreadOf s conn

/-! ## Section 4: the virtual-time computer (the `last_finish` variant)

The exploratory variant (`PacketReader` + `finish_tag`) is the one program
of the repository that implements the virtual-time recurrence the
specification's §4.C describes: for each packet taken in order it computes
`S = max(V, last_finish[connection])`, `F = S + length / weight`, stores
`F` into the packet and into `last_finish[connection]`.  `V` is constant
over one tagging loop (it is updated only between loops, when a packet is
popped).  `last_finish` is an `unordered_map<string, double>` whose
`operator[]` defaults to 0.  The per-packet `weight` is the channel weight
the reader resolved for this packet (`C.w` at arrival time). -/

namespace P3

/-- The variant's `PacketInfo`: arrival time, connection, length, resolved
weight, and the computed `finish_tag`. -/
structure Pkt where
  time : Nat
  connection : String
  length : Nat
  weight : ℚ
  finish : ℚ
deriving DecidableEq, Repr

/-- `last_finish[conn]` with `operator[]`'s default of 0. -/
def lfGet : List (String × ℚ) → String → ℚ
  | [], _ => 0
  | x :: xs, conn => if x.1 = conn then x.2 else lfGet xs conn

/-- `last_finish[conn] = v`. -/
def lfSet : List (String × ℚ) → String → ℚ → List (String × ℚ)
  | [], conn, v => [(conn, v)]
  | x :: xs, conn, v => if x.1 = conn then (conn, v) :: xs else x :: lfSet xs conn v

/-- The tagging loop (`for (auto& p : batch) { S = max(V, last_finish[..]);
F = S + length/weight; p.finish_tag = F; last_finish[..] = F; }`), with the
system virtual time `V` fixed for the whole loop.  Returns the tagged
packets and the final `last_finish` map. -/
def tagAll (V : ℚ) : List (String × ℚ) → List Pkt → List Pkt × List (String × ℚ)
  | lf, [] => ([], lf)
  | lf, p :: rest =>
    let S := max V (lfGet lf p.connection)
    let F := S + (p.length : ℚ) / p.weight
    let r := tagAll V (lfSet lf p.connection F) rest
    ({ p with finish := F } :: r.1, r.2)

end P3

/-! ## Section 5: the concrete S3 scenario -/

/-- The six input lines of scenario S3 (weighted fairness 2:1). -/
def s3Lines : List String :=
  ["0 A a B b 100 2.00", "0 C c D d 100 1.00", "0 A a B b 100",
   "0 C c D d 100", "0 A a B b 100", "0 C c D d 100"]

/-- The arrivals those six lines parse to. -/
def s3Packets : List PacketInfo :=
  [{ time := 0, connection := "A a B b", length := 100, weight := some 2 },
   { time := 0, connection := "C c D d", length := 100, weight := some 1 },
   { time := 0, connection := "A a B b", length := 100, weight := none },
   { time := 0, connection := "C c D d", length := 100, weight := none },
   { time := 0, connection := "A a B b", length := 100, weight := none },
   { time := 0, connection := "C c D d", length := 100, weight := none }]

/-- The six output lines the specification expects for S3. -/
def s3Output : List String :=
  ["0: 0 A a B b 100 2.00", "100: 0 A a B b 100", "200: 0 A a B b 100",
   "300: 0 C c D d 100 1.00", "400: 0 C c D d 100", "500: 0 C c D d 100"]


/-! ## Section 6: derived notions used by the statements -/

/-- The effective pop order of the ready heap: `a` is served no later than
`b` when `a`'s priority is smaller, or equal with a smaller-or-equal
channel index.  `popTop?` returns a `lexLE`-minimum of the entries. -/
def lexLE (a b : ActiveChannelEntry) : Prop :=
  a.prio < b.prio ∨ (a.prio = b.prio ∧ a.chIdx ≤ b.chIdx)

/-- Helper for `fieldCount`: count maximal non-whitespace runs; the flag
records whether the previous character was inside a field. -/
def fieldCountAux : List Char → Bool → Nat
  | [], _ => 0
  | c :: rest, inWord =>
    if isWs c then fieldCountAux rest false
    else (if inWord then 0 else 1) + fieldCountAux rest true

/-- The number of whitespace-separated fields of a line. -/
def fieldCount (s : String) : Nat :=
  fieldCountAux s.data false

/-- Well-formedness of the ready heap (specification invariant 2): every
entry points to an existing channel with a non-empty queue, no channel has
two entries, and every channel with a non-empty queue has an entry. -/
def heapWf (s : Sched) : Prop :=
  (∀ e ∈ s.heap, ∃ c, s.channels[e.chIdx]? = some c ∧ c.2.q ≠ []) ∧
  (s.heap.map ActiveChannelEntry.chIdx).Nodup ∧
  (∀ (i : Nat) (c : String × ChannelInfo), s.channels[i]? = some c → c.2.q ≠ [] → ∃ e ∈ s.heap, e.chIdx = i)

/-- Well-formedness of the channel map: connection keys are distinct and
each channel's stored `index` is its position (assigned as
`channelsIndexMap.size()` at insertion, specification invariant 4). -/
def chansWf (s : Sched) : Prop :=
  (s.channels.map Prod.fst).Nodup ∧
  (∀ (i : Nat) (c : String × ChannelInfo), s.channels[i]? = some c → c.2.index = i) ∧
  (∀ (i : Nat) (c : String × ChannelInfo), s.channels[i]? = some c →
    ∀ x ∈ c.2.q, x.connection = c.1)

/-- The structural invariant of the scheduler, independent of arrival
times. -/
def StructWf (s : Sched) : Prop :=
  heapWf s ∧ chansWf s

/-- The timing invariant (meaningful for inputs sorted by arrival time):
the unread arrivals are non-decreasing in time and not earlier than the
current `time`, and every printed timestamp is at most `time` with the
printed timestamps non-decreasing. -/
def timesWf (s : Sched) : Prop :=
  ((unread s).map PacketInfo.time).Chain' (· ≤ ·) ∧
  (∀ p ∈ unread s, s.time ≤ p.time) ∧
  (∀ x ∈ s.log, x.1 ≤ s.time) ∧
  (s.log.map Prod.fst).Chain' (· ≤ ·)

/-- The fuel measure of `read_batch_with_timeout`'s loop: each iteration
either moves one packet from `pending` into the look-ahead or consumes the
look-ahead. -/
def unreadMeasure (s : Sched) : Nat :=
  2 * s.pending.length + (if s.lookahead.isSome then 1 else 0)

/-- A concrete packet used by witness instantiations. -/
def wPktA : P3.Pkt :=
  { time := 0, connection := "c", length := 10, weight := 1, finish := 0 }

/-- A second concrete packet on the same connection, for witnesses. -/
def wPktB : P3.Pkt :=
  { time := 0, connection := "c", length := 5, weight := 1, finish := 0 }

/-- A concrete arrival used by witness instantiations of the scheduler
lemmas. -/
def wArr : PacketInfo :=
  { time := 0, connection := "k 1 k 2", length := 7, weight := some 2 }

/-- A later concrete arrival (time 10) for witness instantiations. -/
def wLate : PacketInfo :=
  { time := 10, connection := "k 1 k 2", length := 3, weight := none }

/-! ## Section 7: basic lemmas on the helpers -/

theorem updateAt_length {α : Type} (l : List α) (i : Nat) (f : α → α) :
    (updateAt l i f).length = l.length := by
  induction l generalizing i with
  | nil => rfl
  | cons x xs ih =>
    cases i with
    | zero => rfl
    | succ n => simpa [updateAt] using ih n

theorem get?_updateAt_self {α : Type} (l : List α) (i : Nat) (f : α → α) :
    (updateAt l i f)[i]? = l[i]?.map f := by
  induction l generalizing i with
  | nil => rfl
  | cons x xs ih =>
    cases i with
    | zero => simp [updateAt]
    | succ n => simpa [updateAt] using ih n

theorem get?_updateAt_ne {α : Type} (l : List α) (i j : Nat) (f : α → α)
    (h : i ≠ j) : (updateAt l i f)[j]? = l[j]? := by
  induction l generalizing i j with
  | nil => rfl
  | cons x xs ih =>
    cases i with
    | zero =>
      cases j with
      | zero => exact absurd rfl h
      | succ m => simp [updateAt]
    | succ n =>
      cases j with
      | zero => simp [updateAt]
      | succ m => simpa [updateAt] using ih n m (by omega)

theorem lookupIdx_get? (l : List (String × ChannelInfo)) (conn : String) (i : Nat)
    (h : lookupIdx l conn = some i) :
    ∃ c, l[i]? = some c ∧ c.1 = conn := by
  induction l generalizing i with
  | nil => simp [lookupIdx] at h
  | cons x xs ih =>
    by_cases hx : x.1 = conn
    · simp [lookupIdx, hx] at h
      subst h
      exact ⟨x, by simp, hx⟩
    · simp [lookupIdx, hx] at h
      obtain ⟨j, hj, hji⟩ := h
      subst hji
      simpa using ih j hj

theorem lookupIdx_none (l : List (String × ChannelInfo)) (conn : String)
    (h : lookupIdx l conn = none) : ∀ c ∈ l, c.1 ≠ conn := by
  induction l with
  | nil => intro c hc; simp at hc
  | cons x xs ih =>
    by_cases hx : x.1 = conn
    · simp [lookupIdx, hx] at h
    · simp [lookupIdx, hx] at h
      intro c hc
      rcases List.mem_cons.mp hc with rfl | hmem
      · exact hx
      · exact ih h c hmem

theorem lookupIdx_updateAt (l : List (String × ChannelInfo)) (i : Nat)
    (f : String × ChannelInfo → String × ChannelInfo)
    (hf : ∀ x, (f x).1 = x.1) (conn : String) :
    lookupIdx (updateAt l i f) conn = lookupIdx l conn := by
  induction l generalizing i with
  | nil => rfl
  | cons x xs ih =>
    cases i with
    | zero => simp [updateAt, lookupIdx, hf x]
    | succ n => simp [updateAt, lookupIdx, ih n]

theorem lookupIdx_append_self (l : List (String × ChannelInfo)) (conn : String)
    (ch : ChannelInfo) (h : lookupIdx l conn = none) :
    lookupIdx (l ++ [(conn, ch)]) conn = some l.length := by
  induction l with
  | nil => simp [lookupIdx]
  | cons x xs ih =>
    by_cases hx : x.1 = conn
    · simp [lookupIdx, hx] at h
    · simp [lookupIdx, hx] at h ⊢
      simp [ih h]

theorem lookupIdx_append_ne (l : List (String × ChannelInfo)) (conn conn2 : String)
    (ch : ChannelInfo) (h : conn2 ≠ conn) :
    lookupIdx (l ++ [(conn, ch)]) conn2 = lookupIdx l conn2 := by
  induction l with
  | nil => simp [lookupIdx, Ne.symm h]
  | cons x xs ih =>
    by_cases hx : x.1 = conn2
    · simp [lookupIdx, hx]
    · simp [lookupIdx, hx, ih]

/-! ## Section 8: the heap order (claim C4) -/

theorem entryLT_eq_true_iff (a b : ActiveChannelEntry) :
    entryLT a b = true ↔
      (b.prio < a.prio ∨ (a.prio = b.prio ∧ b.chIdx < a.chIdx)) := by
  unfold entryLT
  by_cases h : a.prio = b.prio
  · simp [h]
  · simp [h]

theorem lexLE_refl (a : ActiveChannelEntry) : lexLE a a := by
  right; exact ⟨rfl, le_refl _⟩

theorem lexLE_trans {a b c : ActiveChannelEntry} (h1 : lexLE a b) (h2 : lexLE b c) :
    lexLE a c := by
  rcases h1 with h1 | ⟨h1e, h1i⟩
  · rcases h2 with h2 | ⟨h2e, _⟩
    · exact Or.inl (lt_trans h1 h2)
    · exact Or.inl (h2e ▸ h1)
  · rcases h2 with h2 | ⟨h2e, h2i⟩
    · exact Or.inl (h1e ▸ h2)
    · exact Or.inr ⟨h1e.trans h2e, le_trans h1i h2i⟩

theorem entryLT_eq_false_iff (a b : ActiveChannelEntry) :
    entryLT a b = false ↔ lexLE a b := by
  rw [← Bool.not_eq_true, entryLT_eq_true_iff]
  unfold lexLE
  constructor
  · intro h
    push_neg at h
    rcases lt_or_eq_of_le h.1 with hlt | heq
    · exact Or.inl hlt
    · exact Or.inr ⟨heq, h.2 heq⟩
  · intro h
    push_neg
    rcases h with h | ⟨he, hi⟩
    · exact ⟨le_of_lt h, fun hc => absurd hc (ne_of_lt h)⟩
    · exact ⟨le_of_eq he, fun _ => hi⟩

theorem entryLT_strict_implies_lexLE {a b : ActiveChannelEntry}
    (h : entryLT a b = true) : lexLE b a := by
  rcases (entryLT_eq_true_iff a b).mp h with h1 | ⟨h1, h2⟩
  · exact Or.inl h1
  · exact Or.inr ⟨h1.symm, le_of_lt h2⟩

theorem heapBest_mem (es : List ActiveChannelEntry) :
    ∀ b, heapBest b es ∈ b :: es := by
  induction es with
  | nil => intro b; simp [heapBest]
  | cons e es ih =>
    intro b
    have h := ih (if entryLT b e then e else b)
    rcases List.mem_cons.mp h with heq | hmem
    · rw [heapBest, heq]
      by_cases hbe : entryLT b e <;> simp [hbe]
    · rw [heapBest]
      right; right
      exact hmem

theorem heapBest_le (es : List ActiveChannelEntry) :
    ∀ b x, x ∈ b :: es → lexLE (heapBest b es) x := by
  induction es with
  | nil =>
    intro b x hx
    rcases List.mem_cons.mp hx with rfl | h
    · exact lexLE_refl _
    · simp at h
  | cons e es ih =>
    intro b x hx
    rw [heapBest]
    have hacc_b : lexLE (if entryLT b e then e else b) b := by
      by_cases hbe : entryLT b e
      · simp [hbe]; exact entryLT_strict_implies_lexLE hbe
      · simp [hbe]; exact lexLE_refl _
    have hacc_e : lexLE (if entryLT b e then e else b) e := by
      by_cases hbe : entryLT b e
      · simp [hbe]; exact lexLE_refl _
      · simp [hbe]
        exact (entryLT_eq_false_iff b e).mp (by simpa using hbe)
    have hhead : lexLE (heapBest (if entryLT b e then e else b) es)
        (if entryLT b e then e else b) :=
      ih _ _ (List.mem_cons_self _ _)
    rcases List.mem_cons.mp hx with rfl | hx2
    · exact lexLE_trans hhead hacc_b
    · rcases List.mem_cons.mp hx2 with rfl | hx3
      · exact lexLE_trans hhead hacc_e
      · exact ih _ _ (List.mem_cons_of_mem _ hx3)

theorem removeFirst_perm (l : List ActiveChannelEntry) (t : ActiveChannelEntry)
    (h : t ∈ l) : l.Perm (t :: removeFirst l t) := by
  induction l with
  | nil => simp at h
  | cons e es ih =>
    by_cases he : e = t
    · subst he
      simp [removeFirst]
    · rcases List.mem_cons.mp h with rfl | hmem
      · exact absurd rfl he
      · rw [removeFirst, if_neg he]
        exact (List.Perm.cons e (ih hmem)).trans (List.Perm.swap t e _)

theorem popTop?_spec (l : List ActiveChannelEntry) (h : l ≠ []) :
    ∃ t rest, popTop? l = some (t, rest) ∧ t ∈ l ∧ l.Perm (t :: rest) ∧
      ∀ e ∈ l, lexLE t e := by
  match l with
  | [] => exact absurd rfl h
  | e :: es =>
    refine ⟨heapBest e es, removeFirst (e :: es) (heapBest e es), rfl, heapBest_mem es e, ?_, ?_⟩
    · exact removeFirst_perm _ _ (heapBest_mem es e)
    · exact heapBest_le es e

/-- C4: equal finish tags at the heap's heads are broken by the smaller
channel index.  First conjunct: the source's `ActiveChannelEntry::operator<`
is exactly the inverted lexicographic order on (priority, channel index),
so the max-heap pops entries in (F ascending, index ascending) order.
Second conjunct: whenever two entries `a`, `b` carry equal finish-tag keys
and `a`'s channel index is smaller, the popped entry is never `b` (the
packet of the smaller-index channel is transmitted first), and the popped
entry is a lexicographic minimum of all entries present. -/
theorem c4_equal_tags_smaller_index_first (h : List ActiveChannelEntry)
    (a b : ActiveChannelEntry) (ha : a ∈ h) (hb : b ∈ h)
    (hab : a.prio = b.prio) (hidx : a.chIdx < b.chIdx) :
    (∀ x y : ActiveChannelEntry, entryLT x y = true ↔
       (y.prio < x.prio ∨ (x.prio = y.prio ∧ y.chIdx < x.chIdx))) ∧
    ∃ t rest, popTop? h = some (t, rest) ∧ t ≠ b ∧ ∀ e ∈ h, lexLE t e := by
  refine ⟨entryLT_eq_true_iff, ?_⟩
  obtain ⟨t, rest, hpop, htmem, hperm, hle⟩ :=
    popTop?_spec h (by intro hnil; rw [hnil] at ha; simp at ha)
  refine ⟨t, rest, hpop, ?_, hle⟩
  intro hEq
  subst hEq
  rcases hle a ha with h1 | h2
  · rw [hab] at h1
    exact lt_irrefl _ h1
  · exact absurd hidx (not_lt.mpr h2.2)

/-- Witness for C4 at a concrete two-entry heap with equal priorities. -/
theorem c4_witness :
    (∀ x y : ActiveChannelEntry, entryLT x y = true ↔
       (y.prio < x.prio ∨ (x.prio = y.prio ∧ y.chIdx < x.chIdx))) ∧
    ∃ t rest,
      popTop? [{ chIdx := 1, prio := 5 }, { chIdx := 0, prio := 5 }] = some (t, rest) ∧
      t ≠ { chIdx := 1, prio := 5 } ∧
      ∀ e ∈ [({ chIdx := 1, prio := 5 } : ActiveChannelEntry), { chIdx := 0, prio := 5 }],
        lexLE t e :=
  c4_equal_tags_smaller_index_first
    [{ chIdx := 1, prio := 5 }, { chIdx := 0, prio := 5 }]
    { chIdx := 0, prio := 5 } { chIdx := 1, prio := 5 }
    (by simp) (by simp) rfl (by decide)

/-! ## Section 9: the virtual-time recurrence (claim C1) -/

theorem P3.lfGet_lfSet_self (lf : List (String × ℚ)) (conn : String) (v : ℚ) :
    P3.lfGet (P3.lfSet lf conn v) conn = v := by
  induction lf with
  | nil => simp [P3.lfSet, P3.lfGet]
  | cons x xs ih =>
    by_cases hx : x.1 = conn
    · simp [P3.lfSet, P3.lfGet, hx]
    · simp [P3.lfSet, P3.lfGet, hx, ih]

/-- C1: the virtual-time computer.  In the tagging loop with system virtual
time `V`, the packet at position `i` of the batch receives finish tag
`F = S + L / w` with start tag `S = max(V, F_last)`, where `F_last` is the
`last_finish` value of its connection after the first `i` packets were
tagged; and immediately afterwards (hence before any later packet — in
particular the next packet of the same channel — is tagged) `last_finish`
of that connection holds `F`. -/
theorem c1_virtual_time_recurrence (V : ℚ) (lf : List (String × ℚ))
    (ps : List P3.Pkt) (i : Nat) (p : P3.Pkt) (hp : ps.get? i = some p) :
    (P3.tagAll V lf ps).1.get? i =
      some { p with finish := max V (P3.lfGet (P3.tagAll V lf (ps.take i)).2 p.connection)
                              + (p.length : ℚ) / p.weight } ∧
    P3.lfGet (P3.tagAll V lf (ps.take (i + 1))).2 p.connection =
      max V (P3.lfGet (P3.tagAll V lf (ps.take i)).2 p.connection)
        + (p.length : ℚ) / p.weight := by
  induction ps generalizing lf i with
  | nil => simp at hp
  | cons q rest ih =>
    cases i with
    | zero =>
      simp at hp
      subst hp
      constructor
      · simp [P3.tagAll]
      · simp [P3.tagAll, P3.lfGet_lfSet_self]
    | succ j =>
      simp only [List.get?] at hp
      have h1 : (P3.tagAll V lf (q :: rest)).1.get? (j + 1) =
          (P3.tagAll V (P3.lfSet lf q.connection
            (max V (P3.lfGet lf q.connection) + (q.length : ℚ) / q.weight)) rest).1.get? j := by
        simp [P3.tagAll]
      have h2 : ∀ l : List P3.Pkt, (q :: l).take (j + 1) = q :: l.take j := by
        intro l; rfl
      have ihr := ih (P3.lfSet lf q.connection
        (max V (P3.lfGet lf q.connection) + (q.length : ℚ) / q.weight)) j hp
      constructor
      · rw [h1, ihr.1, List.take_succ_cons]
        simp [P3.tagAll]
      · rw [List.take_succ_cons, List.take_succ_cons]
        have h3 : ∀ l : List P3.Pkt, ∀ lf0 : List (String × ℚ),
            (P3.tagAll V lf0 (q :: l)).2 =
            (P3.tagAll V (P3.lfSet lf0 q.connection
              (max V (P3.lfGet lf0 q.connection) + (q.length : ℚ) / q.weight)) l).2 := by
          intro l lf0; simp [P3.tagAll]
        rw [h3, h3, ihr.2]

/-- Witness for C1 at a two-packet batch on one connection. -/
theorem c1_witness :
    (P3.tagAll 0 [] [wPktA, wPktB]).1.get? 1 =
      some { wPktB with finish := (max 0 (P3.lfGet (P3.tagAll 0 [] ([wPktA, wPktB].take 1)).2 wPktB.connection) + (wPktB.length : ℚ) / wPktB.weight) } ∧
    P3.lfGet (P3.tagAll 0 [] ([wPktA, wPktB].take (1 + 1))).2 wPktB.connection =
      max 0 (P3.lfGet (P3.tagAll 0 [] ([wPktA, wPktB].take 1)).2 wPktB.connection)
        + (wPktB.length : ℚ) / wPktB.weight :=
  c1_virtual_time_recurrence 0 [] [wPktA, wPktB] 1 wPktB (by rfl)

/-! ## Section 10: one consumed arrival (`processArrival`) -/

theorem getOrCreate_found (s : Sched) (conn : String) (i : Nat)
    (hL : lookupIdx s.channels conn = some i) : getOrCreate s conn = (i, s) := by
  simp [getOrCreate, hL]

theorem getOrCreate_new (s : Sched) (conn : String)
    (hL : lookupIdx s.channels conn = none) :
    getOrCreate s conn = (s.channels.length,
      { s with channels :=
          s.channels ++ [(conn, { index := s.channels.length, weight := 1, q := [] })] }) := by
  simp [getOrCreate, hL]

theorem queueOf_eq_of_get? (s : Sched) (conn : String) (i : Nat)
    (c : String × ChannelInfo) (hL : lookupIdx s.channels conn = some i)
    (hc : s.channels[i]? = some c) : queueOf s conn = c.2.q := by
  simp [queueOf, hL, hc]

theorem queueOf_eq_nil_of_none (s : Sched) (conn : String)
    (hL : lookupIdx s.channels conn = none) : queueOf s conn = [] := by
  simp [queueOf, hL]

theorem markChannelActive_untouched (s : Sched) (i : Nat) :
    (markChannelActive s i).pending = s.pending ∧
    (markChannelActive s i).lookahead = s.lookahead ∧
    (markChannelActive s i).log = s.log ∧
    (markChannelActive s i).time = s.time ∧
    (markChannelActive s i).channels = s.channels := by
  unfold markChannelActive
  rcases hg : s.channels[i]? with _ | c
  · simp
  · rcases hq : c.2.q with _ | ⟨p, rest⟩ <;> simp [hq]

theorem markChannelActive_heap (s : Sched) (i : Nat) :
    (markChannelActive s i).heap = s.heap ∨
    ∃ c p rest, s.channels[i]? = some c ∧ c.2.q = p :: rest ∧
      (markChannelActive s i).heap =
        { chIdx := i, prio := (p.length : ℚ) / c.2.weight } :: s.heap := by
  unfold markChannelActive
  rcases hg : s.channels[i]? with _ | c
  · left; simp
  · rcases hq : c.2.q with _ | ⟨p, rest⟩
    · left; simp [hq]
    · right; exact ⟨c, p, rest, rfl, hq, by simp [hq]⟩

theorem getElem?_concat_self {α : Type} (l : List α) (a : α) :
    (l ++ [a])[l.length]? = some a := by
  induction l with
  | nil => rfl
  | cons x xs ih => simpa using ih

theorem getElem?_concat_ne {α : Type} (l : List α) (a : α) (j : Nat)
    (h : j ≠ l.length) : (l ++ [a])[j]? = l[j]? := by
  induction l generalizing j with
  | nil =>
    cases j with
    | zero => exact absurd rfl h
    | succ m => simp
  | cons x xs ih =>
    cases j with
    | zero => simp
    | succ m =>
      simp only [List.cons_append, List.getElem?_cons_succ]
      exact ih m (by simpa using h)

/-- Everything `read_batch_with_timeout`'s per-arrival body does, in one
statement: the reader/printer fields stay untouched, the arrival is
appended to its connection's queue (the channel being created on first
sight), the channel's weight becomes the explicit weight if one is
carried, all other channels stay as they were, and the heap either stays
unchanged (the queue was non-empty) or gains exactly the one entry with
priority `length / weight` computed after the weight update. -/
theorem processArrival_spec (s : Sched) (p : PacketInfo) :
    ∃ (i : Nat) (newW : ℚ),
      (processArrival s p).pending = s.pending ∧
      (processArrival s p).lookahead = s.lookahead ∧
      (processArrival s p).log = s.log ∧
      (processArrival s p).time = s.time ∧
      lookupIdx (processArrival s p).channels p.connection = some i ∧
      (∀ conn2, conn2 ≠ p.connection →
        lookupIdx (processArrival s p).channels conn2 = lookupIdx s.channels conn2) ∧
      (∀ j, j ≠ i → (processArrival s p).channels[j]? = s.channels[j]?) ∧
      (∃ c2, (processArrival s p).channels[i]? = some c2 ∧ c2.1 = p.connection ∧
        c2.2.q = queueOf s p.connection ++ [p] ∧ c2.2.weight = newW) ∧
      (∀ w, p.weight = some w → newW = w) ∧
      ((lookupIdx s.channels p.connection = some i ∧
          (processArrival s p).channels.length = s.channels.length ∧
          (∀ c0, s.channels[i]? = some c0 → c0.2.index =
            (match (processArrival s p).channels[i]? with
             | some c2 => c2.2.index
             | none => 0))) ∨
        (lookupIdx s.channels p.connection = none ∧ i = s.channels.length ∧
          (processArrival s p).channels.length = s.channels.length + 1 ∧
          (match (processArrival s p).channels[i]? with
           | some c2 => c2.2.index
           | none => 0) = i)) ∧
      ((queueOf s p.connection ≠ [] ∧ (processArrival s p).heap = s.heap) ∨
        (queueOf s p.connection = [] ∧
          (processArrival s p).heap =
            { chIdx := i, prio := (p.length : ℚ) / newW } :: s.heap)) := by
  cases hL : lookupIdx s.channels p.connection with
  | some i =>
    obtain ⟨c, hc, hck⟩ := lookupIdx_get? s.channels p.connection i hL
    have hq : queueOf s p.connection = c.2.q := queueOf_eq_of_get? s p.connection i c hL hc
    cases hw : p.weight with
    | some w =>
      have hgetU : (updateAt (updateAt s.channels i
            (fun x => (x.1, { x.2 with q := x.2.q ++ [p] }))) i
            (fun x => (x.1, { x.2 with weight := w })))[i]? =
          some (c.1, { index := c.2.index, weight := w, q := c.2.q ++ [p] }) := by
        rw [get?_updateAt_self, get?_updateAt_self, hc]
        rfl
      have hkeys : ∀ conn2, lookupIdx (updateAt (updateAt s.channels i
            (fun x => (x.1, { x.2 with q := x.2.q ++ [p] }))) i
            (fun x => (x.1, { x.2 with weight := w }))) conn2 =
          lookupIdx s.channels conn2 := by
        intro conn2
        rw [lookupIdx_updateAt _ i (fun x => (x.1, { x.2 with weight := w })) (fun _ => rfl),
            lookupIdx_updateAt _ i (fun x => (x.1, { x.2 with q := x.2.q ++ [p] })) (fun _ => rfl)]
      have hoth : ∀ j, j ≠ i → (updateAt (updateAt s.channels i
            (fun x => (x.1, { x.2 with q := x.2.q ++ [p] }))) i
            (fun x => (x.1, { x.2 with weight := w })))[j]? = s.channels[j]? := by
        intro j hj
        rw [get?_updateAt_ne _ _ _ _ (fun hii => hj hii.symm),
            get?_updateAt_ne _ _ _ _ (fun hii => hj hii.symm)]
      have hlen : (updateAt (updateAt s.channels i
            (fun x => (x.1, { x.2 with q := x.2.q ++ [p] }))) i
            (fun x => (x.1, { x.2 with weight := w }))).length = s.channels.length := by
        rw [updateAt_length, updateAt_length]
      cases hcq : c.2.q with
      | nil =>
        rw [hcq] at hgetU hq
        have hpa : processArrival s p =
            { s with
              channels := updateAt (updateAt s.channels i
                (fun x => (x.1, { x.2 with q := x.2.q ++ [p] }))) i
                (fun x => (x.1, { x.2 with weight := w })),
              heap := { chIdx := i, prio := (p.length : ℚ) / w } :: s.heap } := by
          simp only [processArrival, getOrCreate, hL, hw]
          simp only [hgetU]
          simp [markChannelActive, hgetU]
        refine ⟨i, w, ?_⟩
        rw [hpa, hq]
        refine ⟨rfl, rfl, rfl, rfl, ?_, ?_, ?_, ?_, ?_, ?_, ?_⟩
        · exact (hkeys p.connection).trans hL
        · intro conn2 _; exact hkeys conn2
        · intro j hj; exact hoth j hj
        · exact ⟨(c.1, { index := c.2.index, weight := w, q := [] ++ [p] }), hgetU, hck, rfl, rfl⟩
        · intro w2 hw2; exact Option.some.inj hw2
        · left
          refine ⟨rfl, hlen, ?_⟩
          intro c0 hc0
          rw [hc] at hc0
          cases Option.some.inj hc0
          simp [hgetU]
        · right
          exact ⟨rfl, rfl⟩
      | cons q0 qrest =>
        rw [hcq] at hgetU hq
        have hpa : processArrival s p =
            { s with
              channels := updateAt (updateAt s.channels i
                (fun x => (x.1, { x.2 with q := x.2.q ++ [p] }))) i
                (fun x => (x.1, { x.2 with weight := w })) } := by
          simp only [processArrival, getOrCreate, hL, hw]
          simp only [hgetU]
          rw [if_neg (by simp)]
        refine ⟨i, w, ?_⟩
        rw [hpa, hq]
        refine ⟨rfl, rfl, rfl, rfl, ?_, ?_, ?_, ?_, ?_, ?_, ?_⟩
        · exact (hkeys p.connection).trans hL
        · intro conn2 _; exact hkeys conn2
        · intro j hj; exact hoth j hj
        · exact ⟨(c.1, { index := c.2.index, weight := w, q := (q0 :: qrest) ++ [p] }),
            hgetU, hck, rfl, rfl⟩
        · intro w2 hw2; exact Option.some.inj hw2
        · left
          refine ⟨rfl, hlen, ?_⟩
          intro c0 hc0
          rw [hc] at hc0
          cases Option.some.inj hc0
          simp [hgetU]
        · left
          exact ⟨by simp, rfl⟩
    | none =>
      have hgetU : (updateAt s.channels i
            (fun x => (x.1, { x.2 with q := x.2.q ++ [p] })))[i]? =
          some (c.1, { index := c.2.index, weight := c.2.weight, q := c.2.q ++ [p] }) := by
        rw [get?_updateAt_self, hc]
        rfl
      have hkeys : ∀ conn2, lookupIdx (updateAt s.channels i
            (fun x => (x.1, { x.2 with q := x.2.q ++ [p] }))) conn2 =
          lookupIdx s.channels conn2 := by
        intro conn2
        rw [lookupIdx_updateAt _ i (fun x => (x.1, { x.2 with q := x.2.q ++ [p] })) (fun _ => rfl)]
      have hoth : ∀ j, j ≠ i → (updateAt s.channels i
            (fun x => (x.1, { x.2 with q := x.2.q ++ [p] })))[j]? = s.channels[j]? := by
        intro j hj
        rw [get?_updateAt_ne _ _ _ _ (fun hii => hj hii.symm)]
      have hlen : (updateAt s.channels i
            (fun x => (x.1, { x.2 with q := x.2.q ++ [p] }))).length = s.channels.length :=
        updateAt_length _ _ _
      cases hcq : c.2.q with
      | nil =>
        rw [hcq] at hgetU hq
        have hpa : processArrival s p =
            { s with
              channels := updateAt s.channels i
                (fun x => (x.1, { x.2 with q := x.2.q ++ [p] })),
              heap := { chIdx := i, prio := (p.length : ℚ) / c.2.weight } :: s.heap } := by
          simp only [processArrival, getOrCreate, hL, hw]
          simp only [hgetU]
          simp [markChannelActive, hgetU]
        refine ⟨i, c.2.weight, ?_⟩
        rw [hpa, hq]
        refine ⟨rfl, rfl, rfl, rfl, ?_, ?_, ?_, ?_, ?_, ?_, ?_⟩
        · exact (hkeys p.connection).trans hL
        · intro conn2 _; exact hkeys conn2
        · intro j hj; exact hoth j hj
        · exact ⟨(c.1, { index := c.2.index, weight := c.2.weight, q := [] ++ [p] }),
            hgetU, hck, rfl, rfl⟩
        · intro w2 hw2; exact absurd hw2 (by simp)
        · left
          refine ⟨rfl, hlen, ?_⟩
          intro c0 hc0
          rw [hc] at hc0
          cases Option.some.inj hc0
          simp [hgetU]
        · right
          exact ⟨rfl, rfl⟩
      | cons q0 qrest =>
        rw [hcq] at hgetU hq
        have hpa : processArrival s p =
            { s with
              channels := updateAt s.channels i
                (fun x => (x.1, { x.2 with q := x.2.q ++ [p] })) } := by
          simp only [processArrival, getOrCreate, hL, hw]
          simp only [hgetU]
          rw [if_neg (by simp)]
        refine ⟨i, c.2.weight, ?_⟩
        rw [hpa, hq]
        refine ⟨rfl, rfl, rfl, rfl, ?_, ?_, ?_, ?_, ?_, ?_, ?_⟩
        · exact (hkeys p.connection).trans hL
        · intro conn2 _; exact hkeys conn2
        · intro j hj; exact hoth j hj
        · exact ⟨(c.1, { index := c.2.index, weight := c.2.weight, q := (q0 :: qrest) ++ [p] }),
            hgetU, hck, rfl, rfl⟩
        · intro w2 hw2; exact absurd hw2 (by simp)
        · left
          refine ⟨rfl, hlen, ?_⟩
          intro c0 hc0
          rw [hc] at hc0
          cases Option.some.inj hc0
          simp [hgetU]
        · left
          exact ⟨by simp, rfl⟩
  | none =>
    have hq : queueOf s p.connection = [] := queueOf_eq_nil_of_none s p.connection hL
    have hbase : (s.channels ++
        [(p.connection, { index := s.channels.length, weight := 1, q := [] })])[s.channels.length]? =
        some (p.connection, { index := s.channels.length, weight := 1, q := [] }) :=
      getElem?_concat_self _ _
    cases hw : p.weight with
    | some w =>
      have hgetU : (updateAt (updateAt (s.channels ++
            [(p.connection, { index := s.channels.length, weight := 1, q := [] })])
            s.channels.length (fun x => (x.1, { x.2 with q := x.2.q ++ [p] })))
            s.channels.length (fun x => (x.1, { x.2 with weight := w })))[s.channels.length]? =
          some (p.connection, { index := s.channels.length, weight := w, q := [] ++ [p] }) := by
        rw [get?_updateAt_self, get?_updateAt_self, hbase]
        rfl
      have hpa : processArrival s p =
          { s with
            channels := updateAt (updateAt (s.channels ++
              [(p.connection, { index := s.channels.length, weight := 1, q := [] })])
              s.channels.length (fun x => (x.1, { x.2 with q := x.2.q ++ [p] })))
              s.channels.length (fun x => (x.1, { x.2 with weight := w })),
            heap := { chIdx := s.channels.length,
                      prio := (p.length : ℚ) / w } :: s.heap } := by
        simp only [processArrival, getOrCreate, hL, hw]
        simp only [hgetU]
        simp [markChannelActive, hgetU]
      refine ⟨s.channels.length, w, ?_⟩
      rw [hpa, hq]
      dsimp only
      refine ⟨rfl, rfl, rfl, rfl, ?_, ?_, ?_, ?_, ?_, ?_, ?_⟩
      · rw [lookupIdx_updateAt _ s.channels.length
            (fun x => (x.1, { x.2 with weight := w })) (fun _ => rfl),
          lookupIdx_updateAt _ s.channels.length
            (fun x => (x.1, { x.2 with q := x.2.q ++ [p] })) (fun _ => rfl)]
        exact lookupIdx_append_self s.channels p.connection _ hL
      · intro conn2 hconn2
        rw [lookupIdx_updateAt _ s.channels.length
            (fun x => (x.1, { x.2 with weight := w })) (fun _ => rfl),
          lookupIdx_updateAt _ s.channels.length
            (fun x => (x.1, { x.2 with q := x.2.q ++ [p] })) (fun _ => rfl)]
        exact lookupIdx_append_ne s.channels p.connection conn2 _ hconn2
      · intro j hj
        rw [get?_updateAt_ne _ _ _ _ (fun hii => hj hii.symm),
            get?_updateAt_ne _ _ _ _ (fun hii => hj hii.symm)]
        exact getElem?_concat_ne s.channels _ j hj
      · exact ⟨(p.connection, { index := s.channels.length, weight := w, q := [] ++ [p] }),
          hgetU, rfl, rfl, rfl⟩
      · intro w2 hw2; exact Option.some.inj hw2
      · right
        refine ⟨rfl, rfl, ?_, ?_⟩
        · rw [updateAt_length, updateAt_length]
          simp
        · simp [hgetU]
      · right
        exact ⟨rfl, rfl⟩
    | none =>
      have hgetU : (updateAt (s.channels ++
            [(p.connection, { index := s.channels.length, weight := 1, q := [] })])
            s.channels.length (fun x => (x.1, { x.2 with q := x.2.q ++ [p] })))[s.channels.length]? =
          some (p.connection, { index := s.channels.length, weight := 1, q := [] ++ [p] }) := by
        rw [get?_updateAt_self, hbase]
        rfl
      have hpa : processArrival s p =
          { s with
            channels := updateAt (s.channels ++
              [(p.connection, { index := s.channels.length, weight := 1, q := [] })])
              s.channels.length (fun x => (x.1, { x.2 with q := x.2.q ++ [p] })),
            heap := { chIdx := s.channels.length,
                      prio := (p.length : ℚ) / 1 } :: s.heap } := by
        simp only [processArrival, getOrCreate, hL, hw]
        simp only [hgetU]
        simp [markChannelActive, hgetU]
      refine ⟨s.channels.length, 1, ?_⟩
      rw [hpa, hq]
      dsimp only
      refine ⟨rfl, rfl, rfl, rfl, ?_, ?_, ?_, ?_, ?_, ?_, ?_⟩
      · rw [lookupIdx_updateAt _ s.channels.length
            (fun x => (x.1, { x.2 with q := x.2.q ++ [p] })) (fun _ => rfl)]
        exact lookupIdx_append_self s.channels p.connection _ hL
      · intro conn2 hconn2
        rw [lookupIdx_updateAt _ s.channels.length
            (fun x => (x.1, { x.2 with q := x.2.q ++ [p] })) (fun _ => rfl)]
        exact lookupIdx_append_ne s.channels p.connection conn2 _ hconn2
      · intro j hj
        rw [get?_updateAt_ne _ _ _ _ (fun hii => hj hii.symm)]
        exact getElem?_concat_ne s.channels _ j hj
      · exact ⟨(p.connection, { index := s.channels.length, weight := 1, q := [] ++ [p] }),
          hgetU, rfl, rfl, rfl⟩
      · intro w2 hw2; exact absurd hw2 (by simp)
      · right
        refine ⟨rfl, rfl, ?_, ?_⟩
        · rw [updateAt_length]
          simp
        · simp [hgetU]
      · right
        exact ⟨rfl, rfl⟩

theorem processArrival_untouched (s : Sched) (p : PacketInfo) :
    (processArrival s p).pending = s.pending ∧
    (processArrival s p).lookahead = s.lookahead ∧
    (processArrival s p).log = s.log ∧
    (processArrival s p).time = s.time := by
  obtain ⟨i, newW, h1, h2, h3, h4, _⟩ := processArrival_spec s p
  exact ⟨h1, h2, h3, h4⟩

theorem processArrival_queueOf_self (s : Sched) (p : PacketInfo) :
    queueOf (processArrival s p) p.connection = queueOf s p.connection ++ [p] := by
  obtain ⟨i, newW, _, _, _, _, hlook, _, _, ⟨c2, hc2, _, hc2q, _⟩, _⟩ :=
    processArrival_spec s p
  rw [queueOf_eq_of_get? _ _ i c2 hlook hc2, hc2q]

theorem processArrival_queueOf_ne (s : Sched) (p : PacketInfo) (conn2 : String)
    (h : conn2 ≠ p.connection) :
    queueOf (processArrival s p) conn2 = queueOf s conn2 := by
  obtain ⟨i, newW, _, _, _, _, hlook, hlook2, hoth, ⟨c2, hc2, hc2k, _, _⟩, _, hdisj, _⟩ :=
    processArrival_spec s p
  cases hL2 : lookupIdx s.channels conn2 with
  | none =>
    rw [queueOf_eq_nil_of_none _ _ ((hlook2 conn2 h).trans hL2),
        queueOf_eq_nil_of_none _ _ hL2]
  | some j =>
    obtain ⟨cj, hcj, hcjk⟩ := lookupIdx_get? s.channels conn2 j hL2
    have hji : j ≠ i := by
      intro hEq
      subst hEq
      rcases hdisj with ⟨hfound, _, _⟩ | ⟨_, hlen2, _, _⟩
      · obtain ⟨ci, hci, hcik⟩ := lookupIdx_get? s.channels p.connection j hfound
        rw [hci] at hcj
        cases Option.some.inj hcj
        exact h (hcjk ▸ hcik ▸ rfl)
      · rw [hlen2] at hcj
        rw [List.getElem?_eq_none (le_refl s.channels.length)] at hcj
        cases hcj
    rw [queueOf_eq_of_get? (processArrival s p) conn2 j cj ((hlook2 conn2 h).trans hL2)
          ((hoth j hji).trans hcj),
        queueOf_eq_of_get? s conn2 j cj hL2 hcj]

theorem processArrival_heap_ext (s : Sched) (p : PacketInfo) :
    ∃ es, (processArrival s p).heap = es ++ s.heap := by
  obtain ⟨i, newW, _, _, _, _, _, _, _, _, _, _, hheap⟩ := processArrival_spec s p
  rcases hheap with ⟨_, hsame⟩ | ⟨_, hpush⟩
  · exact ⟨[], by rw [hsame]; rfl⟩
  · exact ⟨[{ chIdx := i, prio := (p.length : ℚ) / newW }], by rw [hpush]; rfl⟩

theorem processArrival_wf (s : Sched) (p : PacketInfo) (hwf : StructWf s) :
    StructWf (processArrival s p) := by
  obtain ⟨⟨hval, hnodup, hcover⟩, hkeysnodup, hindex, hqkey⟩ := hwf
  obtain ⟨i, newW, hpend, hla, hlog, htime, hlook, hlook2, hoth,
    ⟨c2, hc2, hc2k, hc2q, hc2w⟩, hwprop, hdisj, hheap⟩ := processArrival_spec s p
  have hfresh : ∀ e ∈ s.heap, e.chIdx = i →
      queueOf s p.connection ≠ [] := by
    intro e he hei
    obtain ⟨ce, hce, hceq⟩ := hval e he
    rw [hei] at hce
    rcases hdisj with ⟨hfound, _, _⟩ | ⟨hnone, hieq, _, _⟩
    · rw [queueOf_eq_of_get? s p.connection i ce hfound hce]
      exact hceq
    · rw [hieq] at hce
      rw [List.getElem?_eq_none (le_refl s.channels.length)] at hce
      cases hce
  constructor
  · refine ⟨?_, ?_, ?_⟩
    · -- entries point to existing non-empty channels
      intro e he
      have hmem : e ∈ s.heap ∨ e = { chIdx := i, prio := (p.length : ℚ) / newW } := by
        rcases hheap with ⟨_, hsame⟩ | ⟨_, hpush⟩
        · left; rw [hsame] at he; exact he
        · rw [hpush] at he
          rcases List.mem_cons.mp he with hh | hh
          · right; exact hh
          · left; exact hh
      rcases hmem with hmem | hmem
      · obtain ⟨ce, hce, hceq⟩ := hval e hmem
        by_cases hei : e.chIdx = i
        · rw [hei, hc2]
          refine ⟨c2, rfl, ?_⟩
          rw [hc2q]
          simp
        · rw [hoth e.chIdx hei]
          exact ⟨ce, hce, hceq⟩
      · rw [hmem]
        refine ⟨c2, hc2, ?_⟩
        rw [hc2q]
        simp
    · -- one entry per channel
      rcases hheap with ⟨_, hsame⟩ | ⟨hqe, hpush⟩
      · rw [hsame]; exact hnodup
      · rw [hpush]
        simp only [List.map_cons, List.nodup_cons]
        refine ⟨?_, hnodup⟩
        intro hmem
        obtain ⟨e, he, hei⟩ := List.mem_map.mp hmem
        exact hfresh e he hei hqe
    · -- every non-empty channel is covered
      intro j c hj hqne
      by_cases hji : j = i
      · subst hji
        rcases hheap with ⟨hqne2, hsame⟩ | ⟨_, hpush⟩
        · rcases hdisj with ⟨hfound, _, _⟩ | ⟨hnone, _, _, _⟩
          · obtain ⟨ci, hci, hcik⟩ := lookupIdx_get? s.channels p.connection j hfound
            have hciq : ci.2.q ≠ [] := by
              rw [← queueOf_eq_of_get? s p.connection j ci hfound hci]
              exact hqne2
            obtain ⟨e, he, hei⟩ := hcover j ci hci hciq
            refine ⟨e, ?_, hei⟩
            rw [hsame]
            exact he
          · exact absurd (queueOf_eq_nil_of_none s p.connection hnone) hqne2
        · refine ⟨{ chIdx := j, prio := (p.length : ℚ) / newW }, ?_, rfl⟩
          rw [hpush]
          exact List.mem_cons_self _ _
      · rw [hoth j hji] at hj
        obtain ⟨e, he, hei⟩ := hcover j c hj hqne
        refine ⟨e, ?_, hei⟩
        rcases hheap with ⟨_, hsame⟩ | ⟨_, hpush⟩
        · rw [hsame]; exact he
        · rw [hpush]; exact List.mem_cons_of_mem _ he
  · refine ⟨?_, ?_, ?_⟩
    · -- connection keys stay distinct
      rcases hdisj with ⟨hfound, hlen, _⟩ | ⟨hnone, hieq, hlen, _⟩
      · have hkeys_eq : (processArrival s p).channels.map Prod.fst =
            s.channels.map Prod.fst := by
          apply List.ext_getElem?
          intro n
          rw [List.getElem?_map, List.getElem?_map]
          by_cases hn : n = i
          · subst hn
            obtain ⟨ci, hci, hcik⟩ := lookupIdx_get? s.channels p.connection n hfound
            rw [hc2, hci]
            simp [hc2k, hcik]
          · rw [hoth n hn]
        rw [hkeys_eq]
        exact hkeysnodup
      · have hkeys_eq : (processArrival s p).channels.map Prod.fst =
            s.channels.map Prod.fst ++ [p.connection] := by
          apply List.ext_getElem?
          intro n
          by_cases hn : n = i
          · subst hn
            rw [List.getElem?_map, hc2]
            rw [hieq]
            have : (s.channels.map Prod.fst ++ [p.connection])[(s.channels.map Prod.fst).length]? =
                some p.connection := getElem?_concat_self _ _
            rw [List.length_map] at this
            rw [this]
            simp [hc2k]
          · rw [List.getElem?_map, hoth n hn]
            have hne2 : n ≠ (s.channels.map Prod.fst).length := by
              rw [List.length_map, ← hieq]
              exact hn
            rw [getElem?_concat_ne _ _ _ hne2, List.getElem?_map]
        rw [hkeys_eq, List.nodup_append]
        refine ⟨hkeysnodup, List.nodup_singleton _, ?_⟩
        intro x hx hx2
        rw [List.mem_singleton.mp hx2] at hx
        obtain ⟨cc, hcc, hcck⟩ := List.mem_map.mp hx
        exact lookupIdx_none s.channels p.connection hnone cc hcc hcck
    · -- stored index equals position
      intro j c hj
      by_cases hji : j = i
      · subst hji
        rw [hc2] at hj
        cases Option.some.inj hj
        rcases hdisj with ⟨hfound, _, hidx⟩ | ⟨_, _, _, hidx⟩
        · obtain ⟨ci, hci, _⟩ := lookupIdx_get? s.channels p.connection j hfound
          have h1 := hidx ci hci
          have h2 := hindex j ci hci
          rw [hc2] at h1
          rw [h2] at h1
          exact h1.symm
        · rw [hc2] at hidx
          exact hidx
      · rw [hoth j hji] at hj
        exact hindex j c hj
    · -- queued packets carry their channel's key
      intro j c hj x hx
      by_cases hji : j = i
      · subst hji
        rw [hc2] at hj
        cases Option.some.inj hj
        rw [hc2q] at hx
        rcases List.mem_append.mp hx with hx1 | hx2
        · rcases hdisj with ⟨hfound, _, _⟩ | ⟨hnone, _, _, _⟩
          · obtain ⟨ci, hci, hcik⟩ := lookupIdx_get? s.channels p.connection j hfound
            rw [queueOf_eq_of_get? s p.connection j ci hfound hci] at hx1
            rw [hc2k]
            rw [← hcik]
            exact hqkey j ci hci x hx1
          · rw [queueOf_eq_nil_of_none s p.connection hnone] at hx1
            cases hx1
        · rw [List.mem_singleton.mp hx2, hc2k]
      · rw [hoth j hji] at hj
        exact hqkey j c hj x hx

/-! ## Section 11: the batch reader loops -/

theorem takeWhile_append_of_all {α : Type} (p : α → Bool) (l1 l2 : List α)
    (h : ∀ x ∈ l1, p x = true) :
    (l1 ++ l2).takeWhile p = l1 ++ l2.takeWhile p ∧
    (l1 ++ l2).dropWhile p = l2.dropWhile p := by
  induction l1 with
  | nil => simp
  | cons x xs ih =>
    have hx : p x = true := h x (List.mem_cons_self _ _)
    have hrest := ih (fun y hy => h y (List.mem_cons_of_mem _ hy))
    simp only [List.cons_append, List.takeWhile_cons, List.dropWhile_cons, hx]
    simp [hrest.1, hrest.2]

theorem queueOf_congr (s1 s2 : Sched) (h : s1.channels = s2.channels) (conn : String) :
    queueOf s1 conn = queueOf s2 conn := by
  unfold queueOf
  rw [h]

theorem structWf_congr (s1 s2 : Sched) (hc : s1.channels = s2.channels)
    (hh : s1.heap = s2.heap) : StructWf s1 ↔ StructWf s2 := by
  unfold StructWf heapWf chansWf
  rw [hc, hh]

/-- Conservation through one `read_batch_with_timeout` call: the consumed
arrivals `cs` move from the reader into their channels' queues in order;
printing state and `time` are untouched; the heap only gains entries. -/
theorem rbwtFuel_spec (fuel maxT : Nat) (s : Sched) :
    ∃ cs : List PacketInfo,
      unread s = cs ++ unread (rbwtFuel fuel maxT s).2 ∧
      (rbwtFuel fuel maxT s).1 = cs.length ∧
      (∀ x ∈ cs, x.time ≤ maxT) ∧
      (∀ conn, queueOf (rbwtFuel fuel maxT s).2 conn =
        queueOf s conn ++ cs.filter (fun x => x.connection == conn)) ∧
      (rbwtFuel fuel maxT s).2.log = s.log ∧
      (rbwtFuel fuel maxT s).2.time = s.time ∧
      (∃ es, (rbwtFuel fuel maxT s).2.heap = es ++ s.heap ∧ (cs = [] → es = [])) ∧
      (StructWf s → StructWf (rbwtFuel fuel maxT s).2) := by
  induction fuel generalizing maxT s with
  | zero =>
    refine ⟨[], by simp [rbwtFuel], by simp [rbwtFuel], by simp, ?_, by simp [rbwtFuel],
      by simp [rbwtFuel], ⟨[], by simp [rbwtFuel], fun _ => rfl⟩, by simp [rbwtFuel]⟩
    intro conn
    simp [rbwtFuel]
  | succ fuel ih =>
    cases hla : s.lookahead with
    | none =>
      cases hp : s.pending with
      | nil =>
        refine ⟨[], by simp [rbwtFuel, hla, hp], by simp [rbwtFuel, hla, hp], by simp, ?_,
          by simp [rbwtFuel, hla, hp], by simp [rbwtFuel, hla, hp],
          ⟨[], by simp [rbwtFuel, hla, hp], fun _ => rfl⟩, by simp [rbwtFuel, hla, hp]⟩
        intro conn
        simp [rbwtFuel, hla, hp]
      | cons p rest =>
        have hstep : rbwtFuel (fuel + 1) maxT s =
            rbwtFuel fuel maxT { s with lookahead := some p, pending := rest } := by
          simp [rbwtFuel, hla, hp]
        obtain ⟨cs, h1, h2, h3, h4, h5, h6, ⟨es, h7, h7z⟩, h8⟩ :=
          ih maxT { s with lookahead := some p, pending := rest }
        rw [hstep]
        refine ⟨cs, ?_, h2, h3, ?_, h5, h6, ⟨es, h7, h7z⟩, ?_⟩
        · rw [unread, hla, hp]
          rw [unread] at h1
          simpa using h1
        · intro conn
          rw [h4 conn, queueOf_congr { s with lookahead := some p, pending := rest } s rfl]
        · intro hwf
          exact h8 ((structWf_congr _ s rfl rfl).mpr hwf)
    | some p =>
      by_cases ht : maxT < p.time
      · refine ⟨[], by simp [rbwtFuel, hla, ht], by simp [rbwtFuel, hla, ht], by simp, ?_,
          by simp [rbwtFuel, hla, ht], by simp [rbwtFuel, hla, ht],
          ⟨[], by simp [rbwtFuel, hla, ht], fun _ => rfl⟩, by simp [rbwtFuel, hla, ht]⟩
        intro conn
        simp [rbwtFuel, hla, ht]
      · have hstep : rbwtFuel (fuel + 1) maxT s =
            ((rbwtFuel fuel (min maxT p.time)
                (processArrival { s with lookahead := none } p)).1 + 1,
             (rbwtFuel fuel (min maxT p.time)
                (processArrival { s with lookahead := none } p)).2) := by
          simp [rbwtFuel, hla, ht]
        obtain ⟨cs, h1, h2, h3, h4, h5, h6, ⟨es, h7, h7z⟩, h8⟩ :=
          ih (min maxT p.time) (processArrival { s with lookahead := none } p)
        obtain ⟨hup, hul, hulog, hut⟩ := processArrival_untouched { s with lookahead := none } p
        rw [hstep]
        refine ⟨p :: cs, ?_, by simpa using h2, ?_, ?_, ?_, ?_, ?_, ?_⟩
        · rw [unread, hla]
          rw [unread, hup, hul] at h1
          simpa using h1
        · intro x hx
          rcases List.mem_cons.mp hx with rfl | hx2
          · exact le_of_not_lt ht
          · exact le_trans (h3 x hx2) (min_le_left _ _)
        · intro conn
          rw [h4 conn]
          by_cases hc : p.connection = conn
          · subst hc
            rw [processArrival_queueOf_self,
                queueOf_congr { s with lookahead := none } s rfl]
            simp
          · rw [processArrival_queueOf_ne _ _ conn (fun hEq => hc hEq.symm),
                queueOf_congr { s with lookahead := none } s rfl]
            have : (p.connection == conn) = false := by
              simp [hc]
            simp [this]
        · rw [h5, hulog]
        · rw [h6, hut]
        · obtain ⟨es0, hes0⟩ := processArrival_heap_ext { s with lookahead := none } p
          exact ⟨es ++ es0, by rw [h7, hes0, List.append_assoc],
            fun hcs => absurd hcs (by simp)⟩
        · intro hwf
          exact h8 (processArrival_wf _ p ((structWf_congr _ s rfl rfl).mpr hwf))

theorem unreadMeasure_lt_wrapper (s : Sched) :
    unreadMeasure s < 2 * s.pending.length + 2 := by
  unfold unreadMeasure
  cases s.lookahead <;> simp <;> omega

/-- When `read_batch_with_timeout`'s loop (with enough fuel) consumes
nothing, either the input is exhausted with an empty look-ahead, or the
look-ahead packet's time exceeds the (unshrunk) bound. -/
theorem rbwtFuel_zero (fuel maxT : Nat) (s : Sched)
    (hfuel : unreadMeasure s < fuel) (h0 : (rbwtFuel fuel maxT s).1 = 0) :
    ((rbwtFuel fuel maxT s).2.lookahead = none ∧
      (rbwtFuel fuel maxT s).2.pending = []) ∨
    (∃ p, (rbwtFuel fuel maxT s).2.lookahead = some p ∧ maxT < p.time) := by
  induction fuel generalizing maxT s with
  | zero => exact absurd hfuel (by omega)
  | succ fuel ih =>
    cases hla : s.lookahead with
    | none =>
      cases hp : s.pending with
      | nil =>
        left
        constructor <;> simp [rbwtFuel, hla, hp]
      | cons p rest =>
        have hstep : rbwtFuel (fuel + 1) maxT s =
            rbwtFuel fuel maxT { s with lookahead := some p, pending := rest } := by
          simp [rbwtFuel, hla, hp]
        rw [hstep] at h0 ⊢
        apply ih
        · have h1 : unreadMeasure s = 2 * s.pending.length := by
            unfold unreadMeasure
            rw [hla]
            simp
          have h2 : unreadMeasure { s with lookahead := some p, pending := rest } =
              2 * rest.length + 1 := by
            unfold unreadMeasure
            simp
          rw [h2]
          rw [h1, hp] at hfuel
          simp [List.length_cons] at hfuel
          omega
        · exact h0
    | some p =>
      by_cases ht : maxT < p.time
      · right
        refine ⟨p, ?_, ht⟩
        simp [rbwtFuel, hla, ht]
      · exfalso
        have : (rbwtFuel (fuel + 1) maxT s).1 =
            (rbwtFuel fuel (min maxT p.time)
              (processArrival { s with lookahead := none } p)).1 + 1 := by
          simp [rbwtFuel, hla, ht]
        rw [this] at h0
        exact Nat.succ_ne_zero _ h0

theorem readBatchWithTimeout_spec (maxT : Nat) (s : Sched) :
    ∃ cs : List PacketInfo,
      unread s = cs ++ unread (readBatchWithTimeout maxT s).2 ∧
      (readBatchWithTimeout maxT s).1 = cs.length ∧
      (∀ x ∈ cs, x.time ≤ maxT) ∧
      (∀ conn, queueOf (readBatchWithTimeout maxT s).2 conn =
        queueOf s conn ++ cs.filter (fun x => x.connection == conn)) ∧
      (readBatchWithTimeout maxT s).2.log = s.log ∧
      (readBatchWithTimeout maxT s).2.time = s.time ∧
      (∃ es, (readBatchWithTimeout maxT s).2.heap = es ++ s.heap ∧ (cs = [] → es = [])) ∧
      (StructWf s → StructWf (readBatchWithTimeout maxT s).2) :=
  rbwtFuel_spec (2 * s.pending.length + 2) maxT s

theorem readBatchWithTimeout_zero (maxT : Nat) (s : Sched)
    (h0 : (readBatchWithTimeout maxT s).1 = 0) :
    ((readBatchWithTimeout maxT s).2.lookahead = none ∧
      (readBatchWithTimeout maxT s).2.pending = []) ∨
    (∃ p, (readBatchWithTimeout maxT s).2.lookahead = some p ∧ maxT < p.time) :=
  rbwtFuel_zero (2 * s.pending.length + 2) maxT s (unreadMeasure_lt_wrapper s) h0

/-- Characterization of `read_with_timeout(max_time)` on a time-sorted
reader: it consumes exactly the arrivals with `T ≤ max_time` (in order,
appending each to its channel's queue), returns their number, and retains
as look-ahead at most the first arrival with `T > max_time`. -/
theorem rwtFuel_spec (fuel maxT : Nat) (s : Sched)
    (hfuel : (unread s).length < fuel)
    (hsorted : ((unread s).map PacketInfo.time).Chain' (· ≤ ·)) :
    (rwtFuel fuel maxT s).1 =
      ((unread s).takeWhile (fun x => x.time ≤ maxT)).length ∧
    unread (rwtFuel fuel maxT s).2 = (unread s).dropWhile (fun x => x.time ≤ maxT) ∧
    (∀ conn, queueOf (rwtFuel fuel maxT s).2 conn = queueOf s conn ++
      ((unread s).takeWhile (fun x => x.time ≤ maxT)).filter
        (fun x => x.connection == conn)) ∧
    (rwtFuel fuel maxT s).2.log = s.log ∧
    (rwtFuel fuel maxT s).2.time = s.time ∧
    (∃ es, (rwtFuel fuel maxT s).2.heap = es ++ s.heap) ∧
    (∀ p, (rwtFuel fuel maxT s).2.lookahead = some p → maxT < p.time) ∧
    ((rwtFuel fuel maxT s).2.lookahead = none →
      (rwtFuel fuel maxT s).2.pending = []) ∧
    (StructWf s → StructWf (rwtFuel fuel maxT s).2) := by
  induction fuel generalizing s with
  | zero => exact absurd hfuel (by omega)
  | succ fuel ih =>
    obtain ⟨cs, h1, h2, h3, h4, h5, h6, ⟨es, h7, h7z⟩, h8⟩ := readBatchWithTimeout_spec maxT s
    by_cases hz : (readBatchWithTimeout maxT s).1 = 0
    · have hcs : cs = [] := by
        rw [hz] at h2
        exact (List.length_eq_zero.mp h2.symm)
      subst hcs
      have hu : unread s = unread (readBatchWithTimeout maxT s).2 := by simpa using h1
      have hstep : rwtFuel (fuel + 1) maxT s = (0, (readBatchWithTimeout maxT s).2) := by
        simp [rwtFuel, hz]
      rcases readBatchWithTimeout_zero maxT s hz with ⟨hlan, hpen⟩ | ⟨p, hlap, hpt⟩
      · have hue : unread s = [] := by
          rw [hu, unread, hlan, hpen]
          rfl
        rw [hstep]
        refine ⟨by simp [hue], ?_, ?_, h5, h6, ⟨es, h7⟩, ?_, ?_, h8⟩
        · rw [hue]
          simp only [List.dropWhile_nil]
          rw [← hu]
          exact hue
        · intro conn
          rw [hue]
          simpa using h4 conn
        · intro p hp
          rw [hlan] at hp
          cases hp
        · intro _
          exact hpen
      · have hue : unread s = p :: (readBatchWithTimeout maxT s).2.pending := by
          rw [hu, unread, hlap]
          rfl
        have hpf : decide (p.time ≤ maxT) = false := decide_eq_false (not_le.mpr hpt)
        rw [hstep]
        refine ⟨?_, ?_, ?_, h5, h6, ⟨es, h7⟩, ?_, ?_, h8⟩
        · rw [hue]
          simp [List.takeWhile_cons, hpf]
        · rw [hue]
          simp only [List.dropWhile_cons, hpf, Bool.false_eq_true, if_false]
          rw [← hue]
          exact hu.symm
        · intro conn
          rw [hue]
          simp only [List.takeWhile_cons, hpf, Bool.false_eq_true, if_false]
          simpa using h4 conn
        · intro p2 hp2
          rw [hlap] at hp2
          cases Option.some.inj hp2
          exact hpt
        · intro hn
          rw [hlap] at hn
          cases hn
    · have hstep : rwtFuel (fuel + 1) maxT s =
          ((readBatchWithTimeout maxT s).1 +
            (rwtFuel fuel maxT (readBatchWithTimeout maxT s).2).1,
           (rwtFuel fuel maxT (readBatchWithTimeout maxT s).2).2) := by
        simp [rwtFuel, hz]
      have hcs_pos : 1 ≤ cs.length := by
        rcases Nat.eq_zero_or_pos cs.length with h | h
        · rw [← h2] at h
          exact absurd h hz
        · exact h
      have hfuel2 : (unread (readBatchWithTimeout maxT s).2).length < fuel := by
        have : (unread s).length =
            cs.length + (unread (readBatchWithTimeout maxT s).2).length := by
          rw [h1, List.length_append]
        omega
      have hsorted2 : ((unread (readBatchWithTimeout maxT s).2).map
          PacketInfo.time).Chain' (· ≤ ·) := by
        rw [h1, List.map_append] at hsorted
        exact (List.chain'_append.mp hsorted).2.1
      obtain ⟨g1, g2, g3, g4, g5, ⟨es2, g6⟩, g7, g8, g9⟩ :=
        ih (readBatchWithTimeout maxT s).2 hfuel2 hsorted2
      have hall : ∀ x ∈ cs, (fun x => decide (x.time ≤ maxT)) x = true := by
        intro x hx
        simp [h3 x hx]
      have htw := takeWhile_append_of_all (fun x => decide (x.time ≤ maxT)) cs
        (unread (readBatchWithTimeout maxT s).2) hall
      rw [hstep]
      refine ⟨?_, ?_, ?_, ?_, ?_, ?_, g7, g8, ?_⟩
      · rw [h1, htw.1, List.length_append, h2, g1]
      · rw [g2, h1, htw.2]
      · intro conn
        rw [g3 conn, h4 conn, h1, htw.1, List.filter_append, List.append_assoc]
      · rw [g4, h5]
      · rw [g5, h6]
      · exact ⟨es2 ++ es, by rw [g6, h7, List.append_assoc]⟩
      · intro hwf
        exact g9 (h8 hwf)

/-- `read_with_timeout` (the wrapper with its built-in sufficient fuel)
satisfies the consumption characterization. -/
theorem readWithTimeout_spec (maxT : Nat) (s : Sched)
    (hsorted : ((unread s).map PacketInfo.time).Chain' (· ≤ ·)) :
    (readWithTimeout maxT s).1 =
      ((unread s).takeWhile (fun x => x.time ≤ maxT)).length ∧
    unread (readWithTimeout maxT s).2 =
      (unread s).dropWhile (fun x => x.time ≤ maxT) ∧
    (∀ conn, queueOf (readWithTimeout maxT s).2 conn = queueOf s conn ++
      ((unread s).takeWhile (fun x => x.time ≤ maxT)).filter
        (fun x => x.connection == conn)) ∧
    (readWithTimeout maxT s).2.log = s.log ∧
    (readWithTimeout maxT s).2.time = s.time ∧
    (∃ es, (readWithTimeout maxT s).2.heap = es ++ s.heap) ∧
    (∀ p, (readWithTimeout maxT s).2.lookahead = some p → maxT < p.time) ∧
    ((readWithTimeout maxT s).2.lookahead = none →
      (readWithTimeout maxT s).2.pending = []) ∧
    (StructWf s → StructWf (readWithTimeout maxT s).2) :=
  rwtFuel_spec ((unread s).length + 1) maxT s (by omega) hsorted

theorem dropWhile_time_gt (l : List PacketInfo) (tau : Nat)
    (hs : (l.map PacketInfo.time).Chain' (· ≤ ·)) :
    ∀ x ∈ l.dropWhile (fun x => x.time ≤ tau), tau < x.time := by
  induction l with
  | nil => simp
  | cons p rest ih =>
    have hpair := List.chain'_iff_pairwise.mp hs
    have hhead : ∀ y ∈ rest, p.time ≤ y.time := by
      intro y hy
      exact (List.pairwise_cons.mp hpair).1 y.time (List.mem_map_of_mem _ hy)
    have htail : (rest.map PacketInfo.time).Chain' (· ≤ ·) :=
      List.chain'_iff_pairwise.mpr (List.pairwise_cons.mp hpair).2
    by_cases hp : p.time ≤ tau
    · rw [List.dropWhile_cons]
      simp only [decide_eq_true_eq, hp, if_pos]
      exact ih htail
    · rw [List.dropWhile_cons]
      simp only [decide_eq_true_eq, hp, if_neg, if_false]
      intro x hx
      rcases List.mem_cons.mp hx with rfl | hx2
      · exact lt_of_not_le hp
      · exact lt_of_lt_of_le (lt_of_not_le hp) (hhead x hx2)

/-- C5: `read_with_timeout(τ)` on a time-sorted reader absorbs exactly the
arrivals with `T ≤ τ`: it returns their number, appends them in order to
their channels' queues, every arrival still unread afterwards has `T > τ`,
and the single look-ahead slot holds (at most) one retained arrival, whose
time exceeds `τ`. -/
theorem c5_read_all_up_to (s : Sched) (tau : Nat)
    (hsorted : ((unread s).map PacketInfo.time).Chain' (· ≤ ·)) :
    (readWithTimeout tau s).1 =
      ((unread s).takeWhile (fun x => x.time ≤ tau)).length ∧
    (∀ conn, queueOf (readWithTimeout tau s).2 conn = queueOf s conn ++
      ((unread s).takeWhile (fun x => x.time ≤ tau)).filter
        (fun x => x.connection == conn)) ∧
    (∀ x ∈ unread (readWithTimeout tau s).2, tau < x.time) ∧
    (∀ p, (readWithTimeout tau s).2.lookahead = some p → tau < p.time) := by
  obtain ⟨h1, h2, h3, _, _, _, h7, _, _⟩ := readWithTimeout_spec tau s hsorted
  refine ⟨h1, h3, ?_, h7⟩
  intro x hx
  rw [h2] at hx
  exact dropWhile_time_gt (unread s) tau hsorted x hx

/-- Witness for C5: a reader holding two arrivals (times 0 and 10) with
bound τ = 3 absorbs exactly the first. -/
theorem c5_witness :
    (readWithTimeout 3 (initSched [wArr, wLate])).1 =
      ((unread (initSched [wArr, wLate])).takeWhile (fun x => x.time ≤ 3)).length ∧
    (∀ conn, queueOf (readWithTimeout 3 (initSched [wArr, wLate])).2 conn =
      queueOf (initSched [wArr, wLate]) conn ++
      ((unread (initSched [wArr, wLate])).takeWhile (fun x => x.time ≤ 3)).filter
        (fun x => x.connection == conn)) ∧
    (∀ x ∈ unread (readWithTimeout 3 (initSched [wArr, wLate])).2, 3 < x.time) ∧
    (∀ p, (readWithTimeout 3 (initSched [wArr, wLate])).2.lookahead = some p →
      3 < p.time) :=
  c5_read_all_up_to (initSched [wArr, wLate]) 3
    (by simp [unread, initSched, wArr, wLate])

/-- C6: an arrival carrying an explicit weight `W` sets its channel's
weight to `W` before the packet's own tag is computed: when the packet
finds an empty queue (so it is tagged and pushed now), the fresh heap
entry's priority is `length / W`; and no earlier queued packet is
retagged — when the queue was non-empty, the heap (all previously computed
tags) is left completely unchanged. -/
theorem c6_explicit_weight_update (s : Sched) (p : PacketInfo) (W : ℚ)
    (hw : p.weight = some W) :
    ∃ i c2,
      lookupIdx (processArrival s p).channels p.connection = some i ∧
      (processArrival s p).channels[i]? = some c2 ∧
      c2.2.weight = W ∧
      c2.2.q = queueOf s p.connection ++ [p] ∧
      (queueOf s p.connection ≠ [] → (processArrival s p).heap = s.heap) ∧
      (queueOf s p.connection = [] →
        (processArrival s p).heap =
          { chIdx := i, prio := (p.length : ℚ) / W } :: s.heap) := by
  obtain ⟨i, newW, _, _, _, _, hlook, _, _, ⟨c2, hc2, _, hc2q, hc2w⟩, hwprop, _, hheap⟩ :=
    processArrival_spec s p
  have hnw : newW = W := hwprop W hw
  refine ⟨i, c2, hlook, hc2, by rw [hc2w, hnw], hc2q, ?_, ?_⟩
  · intro hne
    rcases hheap with ⟨_, hsame⟩ | ⟨hnil, _⟩
    · exact hsame
    · exact absurd hnil hne
  · intro hnil
    rcases hheap with ⟨hne, _⟩ | ⟨_, hpush⟩
    · exact absurd hnil hne
    · rw [hpush, hnw]

/-- Witness for C6: the first arrival of a fresh connection with explicit
weight 2. -/
theorem c6_witness :
    ∃ i c2,
      lookupIdx (processArrival (initSched []) wArr).channels wArr.connection = some i ∧
      (processArrival (initSched []) wArr).channels[i]? = some c2 ∧
      c2.2.weight = 2 ∧
      c2.2.q = queueOf (initSched []) wArr.connection ++ [wArr] ∧
      (queueOf (initSched []) wArr.connection ≠ [] →
        (processArrival (initSched []) wArr).heap = (initSched []).heap) ∧
      (queueOf (initSched []) wArr.connection = [] →
        (processArrival (initSched []) wArr).heap =
          { chIdx := i, prio := (wArr.length : ℚ) / 2 } :: (initSched []).heap) :=
  c6_explicit_weight_update (initSched []) wArr 2 (by rfl)

/-! ## Section 12: the service step -/

theorem lookupIdx_of_get (l : List (String × ChannelInfo)) (i : Nat)
    (c : String × ChannelInfo) (hnodup : (l.map Prod.fst).Nodup)
    (hc : l[i]? = some c) : lookupIdx l c.1 = some i := by
  induction l generalizing i with
  | nil => simp at hc
  | cons x xs ih =>
    cases i with
    | zero =>
      simp at hc
      subst hc
      simp [lookupIdx]
    | succ n =>
      simp only [List.getElem?_cons_succ] at hc
      have hmem : c.1 ∈ xs.map Prod.fst := by
        have : c ∈ xs := by
          have := List.getElem?_mem hc
          exact this
        exact List.mem_map_of_mem _ this
      have hxk : x.1 ≠ c.1 := by
        intro hEq
        rw [List.map_cons, List.nodup_cons] at hnodup
        exact hnodup.1 (hEq ▸ hmem)
      rw [lookupIdx, if_neg hxk, ih n (by
        rw [List.map_cons, List.nodup_cons] at hnodup
        exact hnodup.2) hc]
      rfl

theorem queueOf_of_heap_nil (s : Sched) (hwf : StructWf s) (hh : s.heap = []) :
    ∀ conn, queueOf s conn = [] := by
  intro conn
  obtain ⟨⟨_, _, hcover⟩, _⟩ := hwf
  cases hL : lookupIdx s.channels conn with
  | none => exact queueOf_eq_nil_of_none s conn hL
  | some i =>
    obtain ⟨c, hc, hck⟩ := lookupIdx_get? s.channels conn i hL
    rw [queueOf_eq_of_get? s conn i c hL hc]
    by_contra hne
    obtain ⟨e, he, _⟩ := hcover i c hc hne
    rw [hh] at he
    cases he

theorem heap_ne_of_queue_ne (s : Sched) (hwf : StructWf s) (conn : String)
    (h : queueOf s conn ≠ []) : s.heap ≠ [] := by
  intro hh
  exact h (queueOf_of_heap_nil s hwf hh conn)

theorem flowTrace_congr (s1 s2 : Sched) (hc : s1.channels = s2.channels)
    (hl : s1.log = s2.log) (hla : s1.lookahead = s2.lookahead)
    (hp : s1.pending = s2.pending) (conn : String) :
    flowTrace s1 conn = flowTrace s2 conn := by
  unfold flowTrace emittedOf unreadOf unread queueOf
  rw [hc, hl, hla, hp]

/-- Absorbing arrivals preserves each connection's emitted/queued/unread
concatenation. -/
theorem readWithTimeout_flowTrace (maxT : Nat) (s : Sched)
    (hsorted : ((unread s).map PacketInfo.time).Chain' (· ≤ ·)) (conn : String) :
    flowTrace (readWithTimeout maxT s).2 conn = flowTrace s conn := by
  obtain ⟨h1, h2, h3, h4, h5, h6, h7, h8, h9⟩ := readWithTimeout_spec maxT s hsorted
  unfold flowTrace
  have he : emittedOf (readWithTimeout maxT s).2 conn = emittedOf s conn := by
    unfold emittedOf
    rw [h4]
  have hq := h3 conn
  have hu : unreadOf (readWithTimeout maxT s).2 conn =
      ((unread s).dropWhile (fun x => x.time ≤ maxT)).filter
        (fun x => x.connection == conn) := by
    unfold unreadOf
    rw [h2]
  rw [he, hq, hu]
  have hjoin : ((unread s).takeWhile (fun x => x.time ≤ maxT)).filter
        (fun x => x.connection == conn) ++
      ((unread s).dropWhile (fun x => x.time ≤ maxT)).filter
        (fun x => x.connection == conn) =
      unreadOf s conn := by
    unfold unreadOf
    rw [← List.filter_append, List.takeWhile_append_dropWhile]
  rw [← List.append_assoc (emittedOf s conn) (queueOf s conn),
      List.append_assoc (emittedOf s conn ++ queueOf s conn), hjoin]

theorem popTop_nodup (h : List ActiveChannelEntry) (t : ActiveChannelEntry)
    (rest : List ActiveChannelEntry) (hpop : popTop? h = some (t, rest))
    (hnodup : (h.map ActiveChannelEntry.chIdx).Nodup) :
    (rest.map ActiveChannelEntry.chIdx).Nodup ∧
    (∀ e ∈ rest, e.chIdx ≠ t.chIdx) ∧ (∀ e ∈ rest, e ∈ h) := by
  obtain ⟨t2, rest2, hpop2, htmem, hperm, _⟩ :=
    popTop?_spec h (by intro hh; rw [hh] at hpop; cases hpop)
  rw [hpop2] at hpop
  have heq := Option.some.inj hpop
  have he1 : t2 = t := congrArg Prod.fst heq
  have he2 : rest2 = rest := congrArg Prod.snd heq
  subst he1
  subst he2
  have hperm2 : (h.map ActiveChannelEntry.chIdx).Perm
      (t2.chIdx :: rest2.map ActiveChannelEntry.chIdx) := by
    simpa using hperm.map ActiveChannelEntry.chIdx
  have hnd2 := (hperm2.nodup_iff).mp hnodup
  rw [List.nodup_cons] at hnd2
  refine ⟨hnd2.2, ?_, ?_⟩
  · intro e he hEq
    exact hnd2.1 (hEq ▸ List.mem_map_of_mem _ he)
  · intro e he
    exact hperm.symm.subset (List.mem_cons_of_mem _ he)

/-- One service step (`emitPhase`) from a well-formed state with a
non-empty heap: some packet `p` (the front of the popped channel) is
printed at the current `time`, `time` advances by its length, the per-flow
traces are preserved, and the arrivals with `T ≤ time + L` are absorbed. -/
theorem emitPhase_spec (s : Sched) (hwf : StructWf s) (hne : s.heap ≠ [])
    (hsorted : ((unread s).map PacketInfo.time).Chain' (· ≤ ·)) :
    ∃ s1 p,
      emitPhase s = Outcome.next s1 ∧
      s1.log = s.log ++ [(s.time, p)] ∧
      s1.time = s.time + p.length ∧
      StructWf s1 ∧
      (∀ conn, flowTrace s1 conn = flowTrace s conn) ∧
      unread s1 = (unread s).dropWhile (fun x => x.time ≤ s.time + p.length) ∧
      (∀ q2, s1.lookahead = some q2 → s.time + p.length < q2.time) ∧
      (∃ cs, unread s = cs ++ unread s1) := by
  obtain ⟨t, rest, hpop, htmem, hperm, hle⟩ := popTop?_spec s.heap hne
  obtain ⟨hrestnd, hrestne, hrestmem⟩ := popTop_nodup s.heap t rest hpop hwf.1.2.1
  obtain ⟨c, hc, hcqne⟩ := hwf.1.1 t htmem
  cases hq : c.2.q with
  | nil => exact absurd hq hcqne
  | cons p qrest =>
    have hpconn : p.connection = c.1 :=
      hwf.2.2.2 t.chIdx c hc p (by rw [hq]; exact List.mem_cons_self _ _)
    have hlookc : lookupIdx s.channels c.1 = some t.chIdx :=
      lookupIdx_of_get s.channels t.chIdx c hwf.2.1 hc
    have hqofc : queueOf s c.1 = p :: qrest := by
      rw [queueOf_eq_of_get? s c.1 t.chIdx c hlookc hc, hq]
    have hF1 : (updateAt s.channels t.chIdx (fun x => (x.1, { x.2 with q := qrest })))[t.chIdx]? =
        some (c.1, { c.2 with q := qrest }) := by
      rw [get?_updateAt_self, hc]
      rfl
    have hF2 : ∀ j, j ≠ t.chIdx →
        (updateAt s.channels t.chIdx (fun x => (x.1, { x.2 with q := qrest })))[j]? =
        s.channels[j]? := by
      intro j hj
      exact get?_updateAt_ne _ _ _ _ (fun hii => hj hii.symm)
    have hF3 : ∀ conn, lookupIdx
        (updateAt s.channels t.chIdx (fun x => (x.1, { x.2 with q := qrest }))) conn =
        lookupIdx s.channels conn := by
      intro conn
      rw [lookupIdx_updateAt _ t.chIdx (fun x => (x.1, { x.2 with q := qrest })) (fun _ => rfl)]
    -- the state after pop, print, time-advance and conditional re-push
    obtain ⟨sC, hsc_ch, hsc_heap, hsc_la, hsc_pend, hsc_time, hsc_log, hemit⟩ :
        ∃ sC : Sched,
          sC.channels =
            updateAt s.channels t.chIdx (fun x => (x.1, { x.2 with q := qrest })) ∧
          (sC.heap = rest ∧ qrest = [] ∨
            (∃ q0 qr2, qrest = q0 :: qr2 ∧
              sC.heap = (⟨t.chIdx, (q0.length : ℚ) / c.2.weight⟩ :
                ActiveChannelEntry) :: rest)) ∧
          sC.lookahead = s.lookahead ∧
          sC.pending = s.pending ∧
          sC.time = s.time + p.length ∧
          sC.log = s.log ++ [(s.time, p)] ∧
          emitPhase s = Outcome.next (readWithTimeout (s.time + p.length) sC).2 := by
      cases hqr : qrest with
      | nil =>
        refine ⟨{ s with
            heap := rest,
            channels := updateAt s.channels t.chIdx (fun x => (x.1, { x.2 with q := [] })),
            log := s.log ++ [(s.time, p)],
            time := s.time + p.length }, ?_, ?_, rfl, rfl, rfl, rfl, ?_⟩
        · rfl
        · left; exact ⟨rfl, rfl⟩
        · simp only [emitPhase, hpop, hc, hq, hqr]
          simp
      | cons q0 qr2 =>
        refine ⟨markChannelActive { s with
            heap := rest,
            channels := updateAt s.channels t.chIdx
              (fun x => (x.1, { x.2 with q := q0 :: qr2 })),
            log := s.log ++ [(s.time, p)],
            time := s.time + p.length } t.chIdx, ?_, ?_, ?_, ?_, ?_, ?_, ?_⟩
        · rw [(markChannelActive_untouched _ _).2.2.2.2]
        · right
          refine ⟨q0, qr2, rfl, ?_⟩
          rw [hqr] at hF1
          unfold markChannelActive
          rw [hF1]
        · exact (markChannelActive_untouched _ _).2.1
        · exact (markChannelActive_untouched _ _).1
        · exact (markChannelActive_untouched _ _).2.2.2.1
        · exact (markChannelActive_untouched _ _).2.2.1
        · simp only [emitPhase, hpop, hc, hq, hqr]
          simp
          rw [(markChannelActive_untouched _ _).2.2.2.1]
    have hsc_unread : unread sC = unread s := by
      rw [unread, unread, hsc_la, hsc_pend]
    -- flow traces are preserved by the pop-and-print part
    have hflowC : ∀ conn, flowTrace sC conn = flowTrace s conn := by
      intro conn
      have hunr : unreadOf sC conn = unreadOf s conn := by
        unfold unreadOf
        rw [hsc_unread]
      by_cases hcc : conn = c.1
      · subst hcc
        have hemitted : emittedOf sC c.1 = emittedOf s c.1 ++ [p] := by
          unfold emittedOf
          rw [hsc_log, List.map_append, List.filter_append]
          simp [hpconn]
        have hqC : queueOf sC c.1 = qrest := by
          rw [queueOf, hsc_ch, hF3, hlookc]
          simp only [hF1]
        unfold flowTrace
        rw [hemitted, hqC, hqofc, hunr]
        simp [List.append_assoc]
      · have hemitted : emittedOf sC conn = emittedOf s conn := by
          unfold emittedOf
          rw [hsc_log, List.map_append, List.filter_append]
          have hpc : (p.connection == conn) = false := by
            rw [hpconn]
            exact beq_eq_false_iff_ne.mpr (fun h => hcc h.symm)
          simp [hpc]
        have hqC : queueOf sC conn = queueOf s conn := by
          rw [queueOf, hsc_ch, hF3]
          cases hL2 : lookupIdx s.channels conn with
          | none => rw [queueOf, hL2]
          | some j =>
            obtain ⟨cj, hcj, hcjk⟩ := lookupIdx_get? s.channels conn j hL2
            have hjt : j ≠ t.chIdx := by
              intro hEq
              rw [hEq, hc] at hcj
              cases Option.some.inj hcj
              exact hcc hcjk.symm
            simp only [hF2 j hjt, queueOf, hL2]
        unfold flowTrace
        rw [hemitted, hqC, hunr]
    -- the pop-and-print part preserves the structural invariant
    have hwfC : StructWf sC := by
      obtain ⟨⟨hval, hnodup, hcover⟩, hkeysnodup, hindex, hqkey⟩ := hwf
      refine ⟨⟨?_, ?_, ?_⟩, ?_, ?_, ?_⟩
      · intro e he
        rcases hsc_heap with ⟨hh, hqr⟩ | ⟨q0, qr2, hqr, hh⟩
        · rw [hh] at he
          obtain ⟨ce, hce, hceq⟩ := hval e (hrestmem e he)
          rw [hsc_ch, hF2 e.chIdx (hrestne e he)]
          exact ⟨ce, hce, hceq⟩
        · rw [hh] at he
          rcases List.mem_cons.mp he with rfl | he2
          · rw [hsc_ch]
            refine ⟨(c.1, { c.2 with q := qrest }), hF1, ?_⟩
            rw [hqr]
            simp
          · obtain ⟨ce, hce, hceq⟩ := hval e (hrestmem e he2)
            rw [hsc_ch, hF2 e.chIdx (hrestne e he2)]
            exact ⟨ce, hce, hceq⟩
      · rcases hsc_heap with ⟨hh, _⟩ | ⟨q0, qr2, hqr, hh⟩
        · rw [hh]
          exact hrestnd
        · rw [hh]
          simp only [List.map_cons, List.nodup_cons]
          refine ⟨?_, hrestnd⟩
          intro hmem
          obtain ⟨e, he, hei⟩ := List.mem_map.mp hmem
          exact hrestne e he hei
      · intro j cj hj hjq
        rw [hsc_ch] at hj
        by_cases hjt : j = t.chIdx
        · subst hjt
          rw [hF1] at hj
          cases Option.some.inj hj
          rcases hsc_heap with ⟨hh, hqr⟩ | ⟨q0, qr2, hqr, hh⟩
          · exact absurd (by rw [hqr]) hjq
          · refine ⟨⟨t.chIdx, (q0.length : ℚ) / c.2.weight⟩, ?_, ?_⟩
            · rw [hh]
              exact List.mem_cons_self _ _
            · rfl
        · rw [hF2 j hjt] at hj
          obtain ⟨e, he, hei⟩ := hcover j cj hj hjq
          have hent : e ∈ rest := by
            have hmem2 := hperm.subset he
            rcases List.mem_cons.mp hmem2 with rfl | h2
            · exact absurd hei.symm hjt
            · exact h2
          refine ⟨e, ?_, hei⟩
          rcases hsc_heap with ⟨hh, _⟩ | ⟨q0, qr2, _, hh⟩
          · rw [hh]; exact hent
          · rw [hh]; exact List.mem_cons_of_mem _ hent
      · rw [hsc_ch]
        have : (updateAt s.channels t.chIdx
            (fun x => (x.1, { x.2 with q := qrest }))).map Prod.fst =
            s.channels.map Prod.fst := by
          apply List.ext_getElem?
          intro n
          rw [List.getElem?_map, List.getElem?_map]
          by_cases hn : n = t.chIdx
          · subst hn
            rw [hF1, hc]
            rfl
          · rw [hF2 n hn]
        rw [this]
        exact hkeysnodup
      · intro j cj hj
        rw [hsc_ch] at hj
        by_cases hjt : j = t.chIdx
        · subst hjt
          rw [hF1] at hj
          cases Option.some.inj hj
          exact hindex t.chIdx c hc
        · rw [hF2 j hjt] at hj
          exact hindex j cj hj
      · intro j cj hj x hx
        rw [hsc_ch] at hj
        by_cases hjt : j = t.chIdx
        · subst hjt
          rw [hF1] at hj
          cases Option.some.inj hj
          exact hqkey t.chIdx c hc x (by rw [hq]; exact List.mem_cons_of_mem _ hx)
        · rw [hF2 j hjt] at hj
          exact hqkey j cj hj x hx
    -- absorb arrivals
    have hsortedC : ((unread sC).map PacketInfo.time).Chain' (· ≤ ·) := by
      rw [hsc_unread]
      exact hsorted
    obtain ⟨g1, g2, g3, g4, g5, g6, g7, g8, g9⟩ :=
      readWithTimeout_spec (s.time + p.length) sC hsortedC
    have hsctime2 : readWithTimeout sC.time sC = readWithTimeout (s.time + p.length) sC := by
      rw [hsc_time]
    refine ⟨(readWithTimeout (s.time + p.length) sC).2, p, hemit, ?_, ?_, g9 hwfC, ?_, ?_, ?_, ?_⟩
    · rw [g4, hsc_log]
    · rw [g5, hsc_time]
    · intro conn
      rw [readWithTimeout_flowTrace (s.time + p.length) sC hsortedC conn]
      exact hflowC conn
    · rw [g2, hsc_unread]
    · intro q2 hq2
      exact g7 q2 hq2
    · refine ⟨(unread s).takeWhile (fun x => x.time ≤ s.time + p.length), ?_⟩
      rw [g2, hsc_unread]
      rw [List.takeWhile_append_dropWhile]

/-- `read_batch_with_timeout` moves arrivals from the reader to the queues
without touching the printed log, so per-flow traces are preserved (no
sortedness needed: the spec's append decomposition is exact). -/
theorem readBatchWithTimeout_flowTrace (maxT : Nat) (s : Sched) (conn : String) :
    flowTrace (readBatchWithTimeout maxT s).2 conn = flowTrace s conn := by
  obtain ⟨cs, h1, h2, h3, h4, h5, h6, h7, h8⟩ := readBatchWithTimeout_spec maxT s
  unfold flowTrace
  have he : emittedOf (readBatchWithTimeout maxT s).2 conn = emittedOf s conn := by
    unfold emittedOf
    rw [h5]
  have hu : unreadOf s conn =
      cs.filter (fun x => x.connection == conn) ++
      unreadOf (readBatchWithTimeout maxT s).2 conn := by
    unfold unreadOf
    rw [h1, List.filter_append]
  rw [he, h4 conn, hu]
  simp [List.append_assoc]

/-- In a time-sorted concatenation every left element is at most every
right element. -/
theorem times_append_le (cs rest : List PacketInfo)
    (h : ((cs ++ rest).map PacketInfo.time).Chain' (· ≤ ·)) :
    ∀ a ∈ cs, ∀ b ∈ rest, a.time ≤ b.time := by
  rw [List.map_append, List.chain'_iff_pairwise] at h
  have h2 := (List.pairwise_append.mp h).2.2
  intro a ha b hb
  exact h2 a.time (List.mem_map_of_mem _ ha) b.time (List.mem_map_of_mem _ hb)

/-- A suffix of a time-sorted arrival list is time-sorted. -/
theorem times_suffix_sorted (cs rest : List PacketInfo)
    (h : ((cs ++ rest).map PacketInfo.time).Chain' (· ≤ ·)) :
    (rest.map PacketInfo.time).Chain' (· ≤ ·) := by
  rw [List.map_append, List.chain'_append] at h
  exact h.2.1

/-- The timing invariant survives one emission: a packet printed at the
current `time`, `time` advanced by its length, and arrivals up to the new
`time` absorbed. -/
theorem timesWf_emit (s s1 : Sched) (p : PacketInfo) (ht : timesWf s)
    (hlog : s1.log = s.log ++ [(s.time, p)]) (htime : s1.time = s.time + p.length)
    (hunr : unread s1 = (unread s).dropWhile (fun x => x.time ≤ s.time + p.length)) :
    timesWf s1 := by
  obtain ⟨hs, hu, hl, hm⟩ := ht
  have hsplit : unread s =
      (unread s).takeWhile (fun x => x.time ≤ s.time + p.length) ++ unread s1 := by
    rw [hunr, List.takeWhile_append_dropWhile]
  refine ⟨?_, ?_, ?_, ?_⟩
  · exact times_suffix_sorted _ _ (by rw [← hsplit]; exact hs)
  · intro x hx
    rw [htime]
    exact le_of_lt (dropWhile_time_gt (unread s) (s.time + p.length) hs x (hunr ▸ hx))
  · intro x hx
    rw [hlog] at hx
    rw [htime]
    rcases List.mem_append.mp hx with h1 | h1
    · exact le_trans (hl x h1) (Nat.le_add_right _ _)
    · have : x = (s.time, p) := by simpa using h1
      rw [this]
      exact Nat.le_add_right _ _
  · rw [hlog, List.map_append]
    apply List.chain'_append.mpr
    refine ⟨hm, by simp, ?_⟩
    intro a ha b hb
    have hmem : a ∈ s.log.map Prod.fst := List.mem_of_mem_getLast? ha
    obtain ⟨x, hx, hxa⟩ := List.mem_map.mp hmem
    have hb2 : b = s.time := by
      have := hb
      simp at this
      exact this.symm
    rw [hb2, ← hxa]
    exact hl x hx

/-- One iteration of `main`'s loop from a well-formed, well-timed state
either continues or terminates normally, never reaching the undefined
(`stuck`) cases; both invariants and the per-flow traces are preserved,
the reader only shrinks, and on termination the heap is empty and (for
in-range arrival times) the reader is exhausted. -/
theorem mainStep_spec (s : Sched) (hwf : StructWf s) (ht : timesWf s) :
    (∃ s1, mainStep s = Outcome.next s1 ∧ StructWf s1 ∧ timesWf s1 ∧
      (∀ conn, flowTrace s1 conn = flowTrace s conn) ∧
      (∃ cs, unread s = cs ++ unread s1)) ∨
    (∃ s1, mainStep s = Outcome.done s1 ∧ StructWf s1 ∧ timesWf s1 ∧
      (∀ conn, flowTrace s1 conn = flowTrace s conn) ∧
      (∃ cs, unread s = cs ++ unread s1) ∧
      s1.heap = [] ∧
      ((∀ p ∈ unread s, p.time < U64) → unread s1 = [])) := by
  by_cases hidle : s.heap.isEmpty = true
  · have hh : s.heap = [] := by
      cases hE : s.heap with
      | nil => rfl
      | cons a l => rw [hE] at hidle; cases hidle
    obtain ⟨cs, h1, h2, h3, h4, h5, h6, ⟨es, h7, h7z⟩, h8⟩ :=
      readBatchWithTimeout_spec (U64 - 1) s
    by_cases hz : (readBatchWithTimeout (U64 - 1) s).1 = 0
    · right
      have hcs : cs = [] := by
        rw [hz] at h2
        exact List.length_eq_zero.mp h2.symm
      have hus : unread s = unread (readBatchWithTimeout (U64 - 1) s).2 := by
        rw [h1, hcs]
        rfl
      refine ⟨(readBatchWithTimeout (U64 - 1) s).2, ?_, h8 hwf, ?_, ?_, ⟨cs, h1⟩, ?_, ?_⟩
      · simp only [mainStep, hidle, if_true, readBatch]
        simp [hz]
      · refine ⟨by rw [← hus]; exact ht.1, ?_, ?_, ?_⟩
        · intro x hx
          rw [h6]
          exact ht.2.1 x (hus ▸ hx)
        · intro x hx
          rw [h6]
          exact ht.2.2.1 x (h5 ▸ hx)
        · rw [h5]
          exact ht.2.2.2
      · exact readBatchWithTimeout_flowTrace (U64 - 1) s
      · rw [h7, h7z hcs, hh]
        rfl
      · intro hU
        rcases readBatchWithTimeout_zero (U64 - 1) s hz with ⟨hlan, hpen⟩ | ⟨p, hlap, hpt⟩
        · rw [unread, hlan, hpen]
          rfl
        · exfalso
          have hpm : p ∈ unread (readBatchWithTimeout (U64 - 1) s).2 := by
            rw [unread, hlap]
            exact List.mem_append_left _ (by simp)
          have hplt : p.time < U64 := hU p (hus ▸ hpm)
          have hU0 : 0 < U64 := by
            unfold U64
            positivity
          omega
    · left
      have hwf2 : StructWf (readBatchWithTimeout (U64 - 1) s).2 := h8 hwf
      have hcsne : cs ≠ [] := by
        intro hE
        rw [hE] at h2
        exact hz (by rw [h2]; rfl)
      obtain ⟨c0, cs', hcs⟩ := List.exists_cons_of_ne_nil hcsne
      have hc0q : c0 ∈ queueOf (readBatchWithTimeout (U64 - 1) s).2 c0.connection := by
        rw [h4 c0.connection, queueOf_of_heap_nil s hwf hh c0.connection, List.nil_append]
        refine List.mem_filter.mpr ⟨by rw [hcs]; exact List.mem_cons_self _ _, by simp⟩
      have hheapne : (readBatchWithTimeout (U64 - 1) s).2.heap ≠ [] :=
        heap_ne_of_queue_ne _ hwf2 c0.connection (List.ne_nil_of_mem hc0q)
      obtain ⟨t, rest, hpop, htmem, hperm, hle⟩ :=
        popTop?_spec (readBatchWithTimeout (U64 - 1) s).2.heap hheapne
      obtain ⟨c, hcch, hcq⟩ := hwf2.1.1 t htmem
      obtain ⟨p0, q', hq'⟩ := List.exists_cons_of_ne_nil hcq
      have htop : topPacketTime (readBatchWithTimeout (U64 - 1) s).2 = some p0.time := by
        unfold topPacketTime
        simp only [hpop, hcch, hq']
      have hp0cs : p0 ∈ cs := by
        have hqr2 : queueOf (readBatchWithTimeout (U64 - 1) s).2 c.1 = c.2.q :=
          queueOf_eq_of_get? _ c.1 t.chIdx c
            (lookupIdx_of_get _ t.chIdx c hwf2.2.1 hcch) hcch
        have hqf : queueOf (readBatchWithTimeout (U64 - 1) s).2 c.1 =
            cs.filter (fun x => x.connection == c.1) := by
          rw [h4 c.1, queueOf_of_heap_nil s hwf hh c.1, List.nil_append]
        have hp0f : p0 ∈ cs.filter (fun x => x.connection == c.1) := by
          rw [← hqf, hqr2, hq']
          exact List.mem_cons_self _ _
        exact (List.mem_filter.mp hp0f).1
      have hp0unr : p0 ∈ unread s := by
        rw [h1]
        exact List.mem_append_left _ hp0cs
      have hstp0 : s.time ≤ p0.time := ht.2.1 p0 hp0unr
      have hmin : ∀ x ∈ unread (readBatchWithTimeout (U64 - 1) s).2, p0.time ≤ x.time :=
        fun x hx =>
          times_append_le cs (unread (readBatchWithTimeout (U64 - 1) s).2)
            (by rw [← h1]; exact ht.1) p0 hp0cs x hx
      have hwfM : StructWf { (readBatchWithTimeout (U64 - 1) s).2 with time := p0.time } :=
        (structWf_congr _ (readBatchWithTimeout (U64 - 1) s).2 rfl rfl).mpr hwf2
      have hsortM : ((unread { (readBatchWithTimeout (U64 - 1) s).2 with
          time := p0.time }).map PacketInfo.time).Chain' (· ≤ ·) :=
        times_suffix_sorted cs (unread (readBatchWithTimeout (U64 - 1) s).2)
          (by rw [← h1]; exact ht.1)
      have hheapM : ({ (readBatchWithTimeout (U64 - 1) s).2 with
          time := p0.time } : Sched).heap ≠ [] := hheapne
      obtain ⟨s1, pe, hstep, hlog1, htime1, hwf1, hflow1, hunr1, hla1, hsuf1⟩ :=
        emitPhase_spec _ hwfM hheapM hsortM
      have htM : timesWf { (readBatchWithTimeout (U64 - 1) s).2 with time := p0.time } := by
        refine ⟨hsortM, hmin, ?_, ?_⟩
        · intro x hx
          exact le_trans (ht.2.2.1 x (h5 ▸ hx)) hstp0
        · rw [show ({ (readBatchWithTimeout (U64 - 1) s).2 with
              time := p0.time } : Sched).log = s.log from h5]
          exact ht.2.2.2
      refine ⟨s1, ?_, hwf1, timesWf_emit _ s1 pe htM hlog1 htime1 hunr1, ?_, ?_⟩
      · simp only [mainStep, hidle, if_true, readBatch]
        simp only [hz, if_neg, htop]
        exact hstep
      · intro conn
        exact (hflow1 conn).trans ((flowTrace_congr _ (readBatchWithTimeout (U64 - 1) s).2
          rfl rfl rfl rfl conn).trans (readBatchWithTimeout_flowTrace (U64 - 1) s conn))
      · obtain ⟨cs2, hcs2⟩ := hsuf1
        exact ⟨cs ++ cs2, by rw [h1, show unread (readBatchWithTimeout (U64 - 1) s).2 =
          unread { (readBatchWithTimeout (U64 - 1) s).2 with time := p0.time } from rfl,
          hcs2, List.append_assoc]⟩
  · have hhne : s.heap ≠ [] := by
      intro hE
      exact hidle (by rw [hE]; rfl)
    obtain ⟨s1, pe, hstep, hlog1, htime1, hwf1, hflow1, hunr1, hla1, hsuf1⟩ :=
      emitPhase_spec s hwf hhne ht.1
    left
    refine ⟨s1, ?_, hwf1, timesWf_emit s s1 pe ht hlog1 htime1 hunr1, hflow1, hsuf1⟩
    rw [mainStep, if_neg hidle]
    exact hstep

/-- The start state is structurally well-formed (everything empty). -/
theorem initSched_wf (arrivals : List PacketInfo) : StructWf (initSched arrivals) := by
  refine ⟨⟨?_, ?_, ?_⟩, ?_, ?_, ?_⟩
  · intro e he
    cases he
  · simp [initSched]
  · intro i c hc
    simp [initSched] at hc
  · simp [initSched]
  · intro i c hc
    simp [initSched] at hc
  · intro i c hc
    simp [initSched] at hc

/-- The start state satisfies the timing invariant when the arrival trace
is sorted by time. -/
theorem initSched_times (arrivals : List PacketInfo)
    (hsorted : (arrivals.map PacketInfo.time).Chain' (· ≤ ·)) :
    timesWf (initSched arrivals) := by
  refine ⟨hsorted, ?_, ?_, ?_⟩
  · intro p _
    exact Nat.zero_le _
  · intro x hx
    cases hx
  · simp [initSched]

/-- Every state of a bounded run of `main` from a well-formed start keeps
both invariants and the per-flow traces; the reader only shrinks; a
`finished` run ends with an empty heap and (for in-range arrival times) an
exhausted reader. -/
theorem run_inv (fuel : Nat) (s : Sched) (hwf : StructWf s) (ht : timesWf s) :
    StructWf (run fuel s).1 ∧ timesWf (run fuel s).1 ∧
    (∀ conn, flowTrace (run fuel s).1 conn = flowTrace s conn) ∧
    (∃ cs, unread s = cs ++ unread (run fuel s).1) ∧
    ((run fuel s).2 = RunStatus.finished →
      (run fuel s).1.heap = [] ∧
      ((∀ p ∈ unread s, p.time < U64) → unread (run fuel s).1 = [])) := by
  induction fuel generalizing s with
  | zero =>
    refine ⟨hwf, ht, fun _ => rfl, ⟨[], rfl⟩, ?_⟩
    intro h
    simp [run] at h
  | succ fuel ih =>
    rcases mainStep_spec s hwf ht with ⟨s1, hstep, hwf1, ht1, hflow1, hsuf1⟩ |
      ⟨s1, hstep, hwf1, ht1, hflow1, hsuf1, hheap1, hunr1⟩
    · have hrun : run (fuel + 1) s = run fuel s1 := by
        simp [run, hstep]
      obtain ⟨g1, g2, g3, g4, g5⟩ := ih s1 hwf1 ht1
      rw [hrun]
      refine ⟨g1, g2, ?_, ?_, ?_⟩
      · intro conn
        rw [g3 conn, hflow1 conn]
      · obtain ⟨cs1, hc1⟩ := hsuf1
        obtain ⟨cs2, hc2⟩ := g4
        exact ⟨cs1 ++ cs2, by rw [hc1, hc2, List.append_assoc]⟩
      · intro hfin
        obtain ⟨gh, gu⟩ := g5 hfin
        refine ⟨gh, ?_⟩
        intro hU
        apply gu
        intro p hp
        apply hU
        obtain ⟨cs1, hc1⟩ := hsuf1
        rw [hc1]
        exact List.mem_append_right _ hp
    · have hrun : run (fuel + 1) s = (s1, RunStatus.finished) := by
        simp [run, hstep]
      rw [hrun]
      exact ⟨hwf1, ht1, hflow1, hsuf1, fun _ => ⟨hheap1, hunr1⟩⟩

/-- The flow trace of the start state is the arrival trace of the flow. -/
theorem flowTrace_init (arrivals : List PacketInfo) (conn : String) :
    flowTrace (initSched arrivals) conn =
      arrivals.filter (fun x => x.connection == conn) := by
  unfold flowTrace emittedOf queueOf unreadOf unread initSched
  simp [lookupIdx]

/-- C3: for every time-sorted input and every connection key, the emitted
lines of that key form a prefix of the key's arrival trace (per-flow FIFO
is never violated), and on a normally terminated run with in-range arrival
times the emitted lines are exactly the key's arrival trace. -/
theorem c3_per_flow_fifo (arrivals : List PacketInfo) (fuel : Nat) (conn : String)
    (hsorted : (arrivals.map PacketInfo.time).Chain' (· ≤ ·)) :
    (∃ t, emittedOf (run fuel (initSched arrivals)).1 conn ++ t =
      arrivals.filter (fun x => x.connection == conn)) ∧
    ((run fuel (initSched arrivals)).2 = RunStatus.finished →
      (∀ p ∈ arrivals, p.time < U64) →
      emittedOf (run fuel (initSched arrivals)).1 conn =
        arrivals.filter (fun x => x.connection == conn)) := by
  obtain ⟨hwfR, htR, hflowR, hsufR, hfinR⟩ :=
    run_inv fuel (initSched arrivals) (initSched_wf arrivals)
      (initSched_times arrivals hsorted)
  have hft : flowTrace (run fuel (initSched arrivals)).1 conn =
      arrivals.filter (fun x => x.connection == conn) := by
    rw [hflowR conn, flowTrace_init]
  constructor
  · refine ⟨queueOf (run fuel (initSched arrivals)).1 conn ++
      unreadOf (run fuel (initSched arrivals)).1 conn, ?_⟩
    rw [← hft]
    unfold flowTrace
    rw [List.append_assoc]
  · intro hfin hU
    obtain ⟨hheap, hunr⟩ := hfinR hfin
    have hq : queueOf (run fuel (initSched arrivals)).1 conn = [] :=
      queueOf_of_heap_nil _ hwfR hheap conn
    have hur : unread (run fuel (initSched arrivals)).1 = [] := hunr hU
    have hu : unreadOf (run fuel (initSched arrivals)).1 conn = [] := by
      unfold unreadOf
      rw [hur]
      rfl
    rw [← hft]
    unfold flowTrace
    rw [hq, hu]
    simp

/-- C3 witness: the FIFO prefix property at a concrete sorted two-arrival
input. -/
theorem c3_witness :
    (([wArr, wLate].map PacketInfo.time).Chain' (· ≤ ·)) ∧
    ((∃ t, emittedOf (run 5 (initSched [wArr, wLate])).1 "k 1 k 2" ++ t =
      [wArr, wLate].filter (fun x => x.connection == "k 1 k 2")) ∧
    ((run 5 (initSched [wArr, wLate])).2 = RunStatus.finished →
      (∀ p ∈ [wArr, wLate], p.time < U64) →
      emittedOf (run 5 (initSched [wArr, wLate])).1 "k 1 k 2" =
        [wArr, wLate].filter (fun x => x.connection == "k 1 k 2"))) :=
  ⟨by simp [wArr, wLate],
   c3_per_flow_fifo [wArr, wLate] 5 "k 1 k 2" (by simp [wArr, wLate])⟩

/-- C7: at every quiescent point of the loop (any number of completed
iterations from the start state, on a time-sorted input) the ready heap
has pairwise-distinct channel indices and, for every channel of the map,
an entry for that channel exists if and only if its queue is non-empty —
exactly one entry per busy channel, none for idle ones. -/
theorem c7_one_heap_entry_per_busy_channel (arrivals : List PacketInfo) (fuel : Nat)
    (hsorted : (arrivals.map PacketInfo.time).Chain' (· ≤ ·)) :
    (((run fuel (initSched arrivals)).1.heap.map ActiveChannelEntry.chIdx).Nodup) ∧
    (∀ i : Nat, ∀ c : String × ChannelInfo,
      (run fuel (initSched arrivals)).1.channels[i]? = some c →
      (c.2.q ≠ [] ↔ ∃ e ∈ (run fuel (initSched arrivals)).1.heap, e.chIdx = i)) := by
  obtain ⟨⟨hval, hnodup, hcover⟩, _⟩ :=
    (run_inv fuel (initSched arrivals) (initSched_wf arrivals)
      (initSched_times arrivals hsorted)).1
  refine ⟨hnodup, ?_⟩
  intro i c hc
  constructor
  · intro hne
    exact hcover i c hc hne
  · rintro ⟨e, he, rfl⟩
    obtain ⟨c', hc', hq'⟩ := hval e he
    rw [hc'] at hc
    cases Option.some.inj hc
    exact hq'

/-- C7 witness: the heap/queue correspondence at a concrete sorted
two-arrival input. -/
theorem c7_witness :
    (([wArr, wLate].map PacketInfo.time).Chain' (· ≤ ·)) ∧
    ((((run 5 (initSched [wArr, wLate])).1.heap.map ActiveChannelEntry.chIdx).Nodup) ∧
    (∀ i : Nat, ∀ c : String × ChannelInfo,
      (run 5 (initSched [wArr, wLate])).1.channels[i]? = some c →
      (c.2.q ≠ [] ↔ ∃ e ∈ (run 5 (initSched [wArr, wLate])).1.heap, e.chIdx = i))) :=
  ⟨by simp [wArr, wLate],
   c7_one_heap_entry_per_busy_channel [wArr, wLate] 5 (by simp [wArr, wLate])⟩

/-- C8: on every time-sorted input, the timestamps printed at the start of
the output lines are non-decreasing over any bounded run, including across
the idle fast-forwards that jump `time` to the earliest unconsumed arrival
time. -/
theorem c8_printed_tau_nondecreasing (arrivals : List PacketInfo) (fuel : Nat)
    (hsorted : (arrivals.map PacketInfo.time).Chain' (· ≤ ·)) :
    (((run fuel (initSched arrivals)).1.log.map Prod.fst).Chain' (· ≤ ·)) :=
  ((run_inv fuel (initSched arrivals) (initSched_wf arrivals)
    (initSched_times arrivals hsorted)).2.1).2.2.2

/-- C8 witness: non-decreasing printed timestamps at a concrete sorted
two-arrival input. -/
theorem c8_witness :
    (([wArr, wLate].map PacketInfo.time).Chain' (· ≤ ·)) ∧
    (((run 6 (initSched [wArr, wLate])).1.log.map Prod.fst).Chain' (· ≤ ·)) :=
  ⟨by simp [wArr, wLate],
   c8_printed_tau_nondecreasing [wArr, wLate] 6 (by simp [wArr, wLate])⟩

/-- C2: scenario S3 end to end — the six S3 input lines parse to the six
S3 arrivals, the machine run from them terminates normally, and the
printed lines are exactly the six expected output lines: the three flow-A
packets at 0, 100, 200, then the three flow-C packets at 300, 400, 500,
with the two-digit weight literal only on the two packets that carried an
explicit weight. -/
theorem c2_scenario_s3 :
    s3Lines.mapM parsePacket = Except.ok s3Packets ∧
    (run 20 (initSched s3Packets)).2 = RunStatus.finished ∧
    (run 20 (initSched s3Packets)).1.log.map formatLine = s3Output := by
  refine ⟨?_, ?_, ?_⟩
  · with_unfolding_all decide
  · with_unfolding_all decide
  · with_unfolding_all decide

/-! ## Section 13: the parser on lines with trailing text -/

/-- `takeWhile`/`dropWhile` ignore an appended tail whose first character
fails the predicate. -/
theorem tail_stable {p : Char → Bool} (xs tl : List Char)
    (htl : ∀ c, tl.head? = some c → p c = false) :
    (xs ++ tl).takeWhile p = xs.takeWhile p ∧
    (xs ++ tl).dropWhile p = xs.dropWhile p ++ tl := by
  induction xs with
  | nil =>
    cases tl with
    | nil => exact ⟨rfl, rfl⟩
    | cons c r =>
      have hc := htl c rfl
      simp [List.takeWhile_cons, List.dropWhile_cons, hc]
  | cons x xs ih =>
    by_cases hx : p x = true
    · simp [List.takeWhile_cons, List.dropWhile_cons, hx, ih.1, ih.2]
    · simp only [Bool.not_eq_true] at hx
      simp [List.takeWhile_cons, List.dropWhile_cons, hx]

theorem drop_stable {p : Char → Bool} (xs tl : List Char)
    (h : xs.dropWhile p ≠ []) :
    (xs ++ tl).dropWhile p = xs.dropWhile p ++ tl := by
  induction xs with
  | nil => simp at h
  | cons x xs ih =>
    by_cases hx : p x = true
    · rw [List.dropWhile_cons] at h
      simp only [hx, if_true] at h
      simp [List.dropWhile_cons, hx, ih h]
    · simp only [Bool.not_eq_true] at hx
      simp [List.dropWhile_cons, hx]

theorem ws_not_digit (c : Char) (h : isWs c = true) : c.isDigit = false := by
  simp [isWs] at h
  rcases h with ((((h | h) | h) | h) | h) | h <;> subst h <;> decide

theorem scanULL_append (cs tl : List Char) (v : Nat) (rest : List Char)
    (htl : ∀ c, tl.head? = some c → isWs c = true)
    (h : scanULL cs = some (v, rest)) :
    scanULL (cs ++ tl) = some (v, rest ++ tl) := by
  have htd : ∀ c, tl.head? = some c → Char.isDigit c = false :=
    fun c hc => ws_not_digit c (htl c hc)
  cases hcs1 : cs.dropWhile isWs with
  | nil =>
    exfalso
    simp [scanULL, hcs1] at h
  | cons a r =>
    have hne : cs.dropWhile isWs ≠ [] := by rw [hcs1]; exact List.cons_ne_nil a r
    have hdrop : (cs ++ tl).dropWhile isWs = a :: (r ++ tl) := by
      rw [drop_stable cs tl hne, hcs1]
      rfl
    by_cases ha1 : a = '-'
    · subst ha1
      simp only [scanULL, hcs1, hdrop] at h ⊢
      have hts := tail_stable (p := Char.isDigit) r tl htd
      rw [hts.1, hts.2]
      by_cases hds : (r.takeWhile Char.isDigit).isEmpty
      · simp [hds] at h
      · simp only [hds, if_neg, Bool.false_eq_true, not_false_iff, if_false] at h ⊢
        obtain ⟨hv, hr⟩ := Prod.mk.injEq .. ▸ Option.some.inj h
        rw [← hv, ← hr]
    · by_cases ha2 : a = '+'
      · subst ha2
        simp only [scanULL, hcs1, hdrop] at h ⊢
        have hts := tail_stable (p := Char.isDigit) r tl htd
        rw [hts.1, hts.2]
        by_cases hds : (r.takeWhile Char.isDigit).isEmpty
        · simp [hds] at h
        · simp only [hds, if_neg, Bool.false_eq_true, not_false_iff, if_false] at h ⊢
          obtain ⟨hv, hr⟩ := Prod.mk.injEq .. ▸ Option.some.inj h
          rw [← hv, ← hr]
      · simp only [scanULL, hcs1, hdrop] at h ⊢
        simp [ha1, ha2] at h ⊢
        obtain ⟨hd, hv, hr⟩ := h
        refine ⟨hd, ?_, ?_⟩
        · rw [show a :: (r ++ tl) = (a :: r) ++ tl from rfl,
              (tail_stable (a :: r) tl htd).1]
          exact hv
        · rw [show a :: (r ++ tl) = (a :: r) ++ tl from rfl,
              (tail_stable (a :: r) tl htd).2, hr]

theorem scanS31_append (cs tl : List Char) (s : String) (rest : List Char)
    (htl : ∀ c, tl.head? = some c → isWs c = true)
    (h : scanS31 cs = some (s, rest)) :
    scanS31 (cs ++ tl) = some (s, rest ++ tl) := by
  have htw : ∀ c, tl.head? = some c → (!isWs c) = false := by
    intro c hc
    rw [htl c hc]
    rfl
  cases hcs1 : cs.dropWhile isWs with
  | nil =>
    exfalso
    simp [scanS31, hcs1] at h
  | cons a r =>
    have hne : cs.dropWhile isWs ≠ [] := by rw [hcs1]; exact List.cons_ne_nil a r
    have hdrop : (cs ++ tl).dropWhile isWs = a :: (r ++ tl) := by
      rw [drop_stable cs tl hne, hcs1]
      rfl
    simp only [scanS31, hcs1, hdrop] at h ⊢
    rw [show a :: (r ++ tl) = (a :: r) ++ tl from rfl,
        (tail_stable (a :: r) tl htw).1]
    have hlen : ((((a :: r).takeWhile (fun c => !isWs c)).take 31).length) ≤
        (a :: r).length := by
      refine le_trans ?_ (List.takeWhile_sublist (fun c => !isWs c)).length_le
      rw [List.length_take]
      exact min_le_right _ _
    have hdrop2 : ((a :: r) ++ tl).drop
        ((((a :: r).takeWhile (fun c => !isWs c)).take 31).length) =
        (a :: r).drop ((((a :: r).takeWhile (fun c => !isWs c)).take 31).length) ++ tl := by
      rw [List.drop_append_of_le_length hlen]
    rw [hdrop2]
    by_cases hT : (((a :: r).takeWhile (fun c => !isWs c)).take 31).isEmpty
    · rw [if_pos hT] at h
      cases h
    · rw [if_neg hT] at h ⊢
      obtain ⟨hs, hr⟩ := Prod.mk.injEq .. ▸ Option.some.inj h
      rw [hs, hr]

theorem ws_facts (c : Char) (h : isWs c = true) :
    c.isDigit = false ∧ c ≠ '.' ∧ c ≠ 'e' ∧ c ≠ 'E' := by
  simp [isWs] at h
  rcases h with ((((h | h) | h) | h) | h) | h <;> subst h <;> exact ⟨rfl, by decide, by decide, by decide⟩

theorem cons_append_cancel {α : Type} (c : α) (l l2 t : List α) :
    c :: (l ++ t) = l2 ++ t ↔ c :: l = l2 := by
  rw [← List.cons_append, List.append_left_inj]

set_option maxHeartbeats 1600000 in
theorem scanLF_append (cs tl : List Char) (w : ℚ) (rest : List Char)
    (htl : ∀ c, tl.head? = some c → isWs c = true)
    (h : scanLF cs = some (w, rest)) :
    scanLF (cs ++ tl) = some (w, rest ++ tl) := by
  cases tl with
  | nil => simpa using h
  | cons w0 ext =>
    obtain ⟨hnd, hdot, he1, he2⟩ := ws_facts w0 (htl w0 rfl)
    have htd : ∀ c, (w0 :: ext).head? = some c → Char.isDigit c = false := by
      intro c hc
      cases Option.some.inj hc
      simpa [cons_append_cancel, List.append_left_inj] using hnd
    cases hcs1 : cs.dropWhile isWs with
    | nil =>
      exfalso
      simp [scanLF, hcs1] at h
    | cons a r =>
      have hne : cs.dropWhile isWs ≠ [] := by rw [hcs1]; exact List.cons_ne_nil a r
      have hdrop : (cs ++ w0 :: ext).dropWhile isWs = a :: (r ++ w0 :: ext) := by
        rw [drop_stable cs (w0 :: ext) hne, hcs1]
        rfl
      by_cases ha1 : a = '-'
      · subst ha1
        simp only [scanLF, hcs1, hdrop] at h ⊢
        rw [(tail_stable r (w0 :: ext) htd).1, (tail_stable r (w0 :: ext) htd).2]
        cases hD : List.dropWhile Char.isDigit r with
        | nil =>
          simp only [hD, List.nil_append] at h ⊢
          simp [hdot, he1, he2] at h ⊢
          simpa [cons_append_cancel, List.append_left_inj] using h
        | cons d dr =>
          by_cases hd : d = '.'
          · subst hd
            simp only [hD, List.cons_append] at h ⊢
            rw [(tail_stable dr (w0 :: ext) htd).1, (tail_stable dr (w0 :: ext) htd).2]
            cases hC4 : List.dropWhile Char.isDigit dr with
            | nil =>
              simp only [hC4, List.nil_append] at h ⊢
              simp [hdot, he1, he2] at h ⊢
              simpa [cons_append_cancel, List.append_left_inj] using h
            | cons c4 r4 =>
              simp only [hC4, List.cons_append] at h ⊢
              by_cases hce : c4 = 'e'
              · subst hce
                cases r4 with
                | nil =>
                  exfalso
                  simp at h
                | cons b br =>
                  by_cases hb1 : b = '-'
                  · subst hb1
                    simp only [List.cons_append] at h ⊢
                    rw [(tail_stable br (w0 :: ext) htd).1, (tail_stable br (w0 :: ext) htd).2]
                    simp at h ⊢
                    first
                    | simpa [cons_append_cancel, List.append_left_inj] using h
                    | (cases br with
                       | nil => simp at h
                       | cons b0 brr => simpa [cons_append_cancel, List.append_left_inj] using h)
                  · by_cases hb2 : b = '+'
                    · subst hb2
                      simp only [List.cons_append] at h ⊢
                      rw [(tail_stable br (w0 :: ext) htd).1, (tail_stable br (w0 :: ext) htd).2]
                      simp at h ⊢
                      first
                      | simpa [cons_append_cancel, List.append_left_inj] using h
                      | (cases br with
                         | nil => simp at h
                         | cons b0 brr => simpa [cons_append_cancel, List.append_left_inj] using h)
                    · simp only [List.cons_append] at h ⊢
                      simp [hb1, hb2] at h ⊢
                      rw [show b :: (br ++ w0 :: ext) = (b :: br) ++ w0 :: ext from rfl,
                          (tail_stable (b :: br) (w0 :: ext) htd).1,
                          (tail_stable (b :: br) (w0 :: ext) htd).2]
                      simpa [cons_append_cancel, List.append_left_inj] using h
              · by_cases hcE : c4 = 'E'
                · subst hcE
                  cases r4 with
                  | nil =>
                    exfalso
                    simp at h
                  | cons b br =>
                    by_cases hb1 : b = '-'
                    · subst hb1
                      simp only [List.cons_append] at h ⊢
                      rw [(tail_stable br (w0 :: ext) htd).1, (tail_stable br (w0 :: ext) htd).2]
                      simp at h ⊢
                      first
                      | simpa [cons_append_cancel, List.append_left_inj] using h
                      | (cases br with
                         | nil => simp at h
                         | cons b0 brr => simpa [cons_append_cancel, List.append_left_inj] using h)
                    · by_cases hb2 : b = '+'
                      · subst hb2
                        simp only [List.cons_append] at h ⊢
                        rw [(tail_stable br (w0 :: ext) htd).1, (tail_stable br (w0 :: ext) htd).2]
                        simp at h ⊢
                        first
                        | simpa [cons_append_cancel, List.append_left_inj] using h
                        | (cases br with
                           | nil => simp at h
                           | cons b0 brr => simpa [cons_append_cancel, List.append_left_inj] using h)
                      · simp only [List.cons_append] at h ⊢
                        simp [hb1, hb2] at h ⊢
                        rw [show b :: (br ++ w0 :: ext) = (b :: br) ++ w0 :: ext from rfl,
                            (tail_stable (b :: br) (w0 :: ext) htd).1,
                            (tail_stable (b :: br) (w0 :: ext) htd).2]
                        simpa [cons_append_cancel, List.append_left_inj] using h
                · simp [hce, hcE] at h ⊢
                  simpa [cons_append_cancel, List.append_left_inj] using h
          · 
            simp only [hD, List.cons_append] at h ⊢
            by_cases hce : d = 'e'
            · subst hce
              simp [hdot] at h ⊢
              cases dr with
              | nil =>
                exfalso
                simp at h
              | cons b br =>
                by_cases hb1 : b = '-'
                · subst hb1
                  simp only [List.cons_append] at h ⊢
                  rw [(tail_stable br (w0 :: ext) htd).1, (tail_stable br (w0 :: ext) htd).2]
                  simp at h ⊢
                  first
                  | simpa [cons_append_cancel, List.append_left_inj] using h
                  | (cases br with
                     | nil => simp at h
                     | cons b0 brr => simpa [cons_append_cancel, List.append_left_inj] using h)
                · by_cases hb2 : b = '+'
                  · subst hb2
                    simp only [List.cons_append] at h ⊢
                    rw [(tail_stable br (w0 :: ext) htd).1, (tail_stable br (w0 :: ext) htd).2]
                    simp at h ⊢
                    first
                    | simpa [cons_append_cancel, List.append_left_inj] using h
                    | (cases br with
                       | nil => simp at h
                       | cons b0 brr => simpa [cons_append_cancel, List.append_left_inj] using h)
                  · simp only [List.cons_append] at h ⊢
                    simp [hb1, hb2] at h ⊢
                    rw [show b :: (br ++ w0 :: ext) = (b :: br) ++ w0 :: ext from rfl,
                        (tail_stable (b :: br) (w0 :: ext) htd).1,
                        (tail_stable (b :: br) (w0 :: ext) htd).2]
                    simpa [cons_append_cancel, List.append_left_inj] using h
            · by_cases hcE : d = 'E'
              · subst hcE
                simp [hdot] at h ⊢
                cases dr with
                | nil =>
                  exfalso
                  simp at h
                | cons b br =>
                  by_cases hb1 : b = '-'
                  · subst hb1
                    simp only [List.cons_append] at h ⊢
                    rw [(tail_stable br (w0 :: ext) htd).1, (tail_stable br (w0 :: ext) htd).2]
                    simp at h ⊢
                    first
                    | simpa [cons_append_cancel, List.append_left_inj] using h
                    | (cases br with
                       | nil => simp at h
                       | cons b0 brr => simpa [cons_append_cancel, List.append_left_inj] using h)
                  · by_cases hb2 : b = '+'
                    · subst hb2
                      simp only [List.cons_append] at h ⊢
                      rw [(tail_stable br (w0 :: ext) htd).1, (tail_stable br (w0 :: ext) htd).2]
                      simp at h ⊢
                      first
                      | simpa [cons_append_cancel, List.append_left_inj] using h
                      | (cases br with
                         | nil => simp at h
                         | cons b0 brr => simpa [cons_append_cancel, List.append_left_inj] using h)
                    · simp only [List.cons_append] at h ⊢
                      simp [hb1, hb2] at h ⊢
                      rw [show b :: (br ++ w0 :: ext) = (b :: br) ++ w0 :: ext from rfl,
                          (tail_stable (b :: br) (w0 :: ext) htd).1,
                          (tail_stable (b :: br) (w0 :: ext) htd).2]
                      simpa [cons_append_cancel, List.append_left_inj] using h
              · simp [hd, hce, hcE] at h ⊢
                simpa [cons_append_cancel, List.append_left_inj] using h
      · by_cases ha2 : a = '+'
        · subst ha2
          simp only [scanLF, hcs1, hdrop] at h ⊢
          rw [(tail_stable r (w0 :: ext) htd).1, (tail_stable r (w0 :: ext) htd).2]
          cases hD : List.dropWhile Char.isDigit r with
          | nil =>
            simp only [hD, List.nil_append] at h ⊢
            simp [hdot, he1, he2] at h ⊢
            simpa [cons_append_cancel, List.append_left_inj] using h
          | cons d dr =>
            by_cases hd : d = '.'
            · subst hd
              simp only [hD, List.cons_append] at h ⊢
              rw [(tail_stable dr (w0 :: ext) htd).1, (tail_stable dr (w0 :: ext) htd).2]
              cases hC4 : List.dropWhile Char.isDigit dr with
              | nil =>
                simp only [hC4, List.nil_append] at h ⊢
                simp [hdot, he1, he2] at h ⊢
                simpa [cons_append_cancel, List.append_left_inj] using h
              | cons c4 r4 =>
                simp only [hC4, List.cons_append] at h ⊢
                by_cases hce : c4 = 'e'
                · subst hce
                  cases r4 with
                  | nil =>
                    exfalso
                    simp at h
                  | cons b br =>
                    by_cases hb1 : b = '-'
                    · subst hb1
                      simp only [List.cons_append] at h ⊢
                      rw [(tail_stable br (w0 :: ext) htd).1, (tail_stable br (w0 :: ext) htd).2]
                      simp at h ⊢
                      first
                      | simpa [cons_append_cancel, List.append_left_inj] using h
                      | (cases br with
                         | nil => simp at h
                         | cons b0 brr => simpa [cons_append_cancel, List.append_left_inj] using h)
                    · by_cases hb2 : b = '+'
                      · subst hb2
                        simp only [List.cons_append] at h ⊢
                        rw [(tail_stable br (w0 :: ext) htd).1, (tail_stable br (w0 :: ext) htd).2]
                        simp at h ⊢
                        first
                        | simpa [cons_append_cancel, List.append_left_inj] using h
                        | (cases br with
                           | nil => simp at h
                           | cons b0 brr => simpa [cons_append_cancel, List.append_left_inj] using h)
                      · simp only [List.cons_append] at h ⊢
                        simp [hb1, hb2] at h ⊢
                        rw [show b :: (br ++ w0 :: ext) = (b :: br) ++ w0 :: ext from rfl,
                            (tail_stable (b :: br) (w0 :: ext) htd).1,
                            (tail_stable (b :: br) (w0 :: ext) htd).2]
                        simpa [cons_append_cancel, List.append_left_inj] using h
                · by_cases hcE : c4 = 'E'
                  · subst hcE
                    cases r4 with
                    | nil =>
                      exfalso
                      simp at h
                    | cons b br =>
                      by_cases hb1 : b = '-'
                      · subst hb1
                        simp only [List.cons_append] at h ⊢
                        rw [(tail_stable br (w0 :: ext) htd).1, (tail_stable br (w0 :: ext) htd).2]
                        simp at h ⊢
                        first
                        | simpa [cons_append_cancel, List.append_left_inj] using h
                        | (cases br with
                           | nil => simp at h
                           | cons b0 brr => simpa [cons_append_cancel, List.append_left_inj] using h)
                      · by_cases hb2 : b = '+'
                        · subst hb2
                          simp only [List.cons_append] at h ⊢
                          rw [(tail_stable br (w0 :: ext) htd).1, (tail_stable br (w0 :: ext) htd).2]
                          simp at h ⊢
                          first
                          | simpa [cons_append_cancel, List.append_left_inj] using h
                          | (cases br with
                             | nil => simp at h
                             | cons b0 brr => simpa [cons_append_cancel, List.append_left_inj] using h)
                        · simp only [List.cons_append] at h ⊢
                          simp [hb1, hb2] at h ⊢
                          rw [show b :: (br ++ w0 :: ext) = (b :: br) ++ w0 :: ext from rfl,
                              (tail_stable (b :: br) (w0 :: ext) htd).1,
                              (tail_stable (b :: br) (w0 :: ext) htd).2]
                          simpa [cons_append_cancel, List.append_left_inj] using h
                  · simp [hce, hcE] at h ⊢
                    simpa [cons_append_cancel, List.append_left_inj] using h
            · 
              simp only [hD, List.cons_append] at h ⊢
              by_cases hce : d = 'e'
              · subst hce
                simp [hdot] at h ⊢
                cases dr with
                | nil =>
                  exfalso
                  simp at h
                | cons b br =>
                  by_cases hb1 : b = '-'
                  · subst hb1
                    simp only [List.cons_append] at h ⊢
                    rw [(tail_stable br (w0 :: ext) htd).1, (tail_stable br (w0 :: ext) htd).2]
                    simp at h ⊢
                    first
                    | simpa [cons_append_cancel, List.append_left_inj] using h
                    | (cases br with
                       | nil => simp at h
                       | cons b0 brr => simpa [cons_append_cancel, List.append_left_inj] using h)
                  · by_cases hb2 : b = '+'
                    · subst hb2
                      simp only [List.cons_append] at h ⊢
                      rw [(tail_stable br (w0 :: ext) htd).1, (tail_stable br (w0 :: ext) htd).2]
                      simp at h ⊢
                      first
                      | simpa [cons_append_cancel, List.append_left_inj] using h
                      | (cases br with
                         | nil => simp at h
                         | cons b0 brr => simpa [cons_append_cancel, List.append_left_inj] using h)
                    · simp only [List.cons_append] at h ⊢
                      simp [hb1, hb2] at h ⊢
                      rw [show b :: (br ++ w0 :: ext) = (b :: br) ++ w0 :: ext from rfl,
                          (tail_stable (b :: br) (w0 :: ext) htd).1,
                          (tail_stable (b :: br) (w0 :: ext) htd).2]
                      simpa [cons_append_cancel, List.append_left_inj] using h
              · by_cases hcE : d = 'E'
                · subst hcE
                  simp [hdot] at h ⊢
                  cases dr with
                  | nil =>
                    exfalso
                    simp at h
                  | cons b br =>
                    by_cases hb1 : b = '-'
                    · subst hb1
                      simp only [List.cons_append] at h ⊢
                      rw [(tail_stable br (w0 :: ext) htd).1, (tail_stable br (w0 :: ext) htd).2]
                      simp at h ⊢
                      first
                      | simpa [cons_append_cancel, List.append_left_inj] using h
                      | (cases br with
                         | nil => simp at h
                         | cons b0 brr => simpa [cons_append_cancel, List.append_left_inj] using h)
                    · by_cases hb2 : b = '+'
                      · subst hb2
                        simp only [List.cons_append] at h ⊢
                        rw [(tail_stable br (w0 :: ext) htd).1, (tail_stable br (w0 :: ext) htd).2]
                        simp at h ⊢
                        first
                        | simpa [cons_append_cancel, List.append_left_inj] using h
                        | (cases br with
                           | nil => simp at h
                           | cons b0 brr => simpa [cons_append_cancel, List.append_left_inj] using h)
                      · simp only [List.cons_append] at h ⊢
                        simp [hb1, hb2] at h ⊢
                        rw [show b :: (br ++ w0 :: ext) = (b :: br) ++ w0 :: ext from rfl,
                            (tail_stable (b :: br) (w0 :: ext) htd).1,
                            (tail_stable (b :: br) (w0 :: ext) htd).2]
                        simpa [cons_append_cancel, List.append_left_inj] using h
                · simp [hd, hce, hcE] at h ⊢
                  simpa [cons_append_cancel, List.append_left_inj] using h
        · simp only [scanLF, hcs1, hdrop] at h ⊢
          simp [ha1, ha2] at h ⊢
          rw [show a :: (r ++ w0 :: ext) = (a :: r) ++ w0 :: ext from rfl]
          rw [(tail_stable (a :: r) (w0 :: ext) htd).1, (tail_stable (a :: r) (w0 :: ext) htd).2]
          cases hD : List.dropWhile Char.isDigit (a :: r) with
          | nil =>
            simp only [hD, List.nil_append] at h ⊢
            simp [hdot, he1, he2] at h ⊢
            simpa [cons_append_cancel, List.append_left_inj] using h
          | cons d dr =>
            by_cases hd : d = '.'
            · subst hd
              simp only [hD, List.cons_append] at h ⊢
              rw [(tail_stable dr (w0 :: ext) htd).1, (tail_stable dr (w0 :: ext) htd).2]
              cases hC4 : List.dropWhile Char.isDigit dr with
              | nil =>
                simp only [hC4, List.nil_append] at h ⊢
                simp [hdot, he1, he2] at h ⊢
                simpa [cons_append_cancel, List.append_left_inj] using h
              | cons c4 r4 =>
                simp only [hC4, List.cons_append] at h ⊢
                by_cases hce : c4 = 'e'
                · subst hce
                  cases r4 with
                  | nil =>
                    exfalso
                    simp at h
                  | cons b br =>
                    by_cases hb1 : b = '-'
                    · subst hb1
                      simp only [List.cons_append] at h ⊢
                      rw [(tail_stable br (w0 :: ext) htd).1, (tail_stable br (w0 :: ext) htd).2]
                      simp at h ⊢
                      first
                      | simpa [cons_append_cancel, List.append_left_inj] using h
                      | (cases br with
                         | nil => simp at h
                         | cons b0 brr => simpa [cons_append_cancel, List.append_left_inj] using h)
                    · by_cases hb2 : b = '+'
                      · subst hb2
                        simp only [List.cons_append] at h ⊢
                        rw [(tail_stable br (w0 :: ext) htd).1, (tail_stable br (w0 :: ext) htd).2]
                        simp at h ⊢
                        first
                        | simpa [cons_append_cancel, List.append_left_inj] using h
                        | (cases br with
                           | nil => simp at h
                           | cons b0 brr => simpa [cons_append_cancel, List.append_left_inj] using h)
                      · simp only [List.cons_append] at h ⊢
                        simp [hb1, hb2] at h ⊢
                        rw [show b :: (br ++ w0 :: ext) = (b :: br) ++ w0 :: ext from rfl,
                            (tail_stable (b :: br) (w0 :: ext) htd).1,
                            (tail_stable (b :: br) (w0 :: ext) htd).2]
                        simpa [cons_append_cancel, List.append_left_inj] using h
                · by_cases hcE : c4 = 'E'
                  · subst hcE
                    cases r4 with
                    | nil =>
                      exfalso
                      simp at h
                    | cons b br =>
                      by_cases hb1 : b = '-'
                      · subst hb1
                        simp only [List.cons_append] at h ⊢
                        rw [(tail_stable br (w0 :: ext) htd).1, (tail_stable br (w0 :: ext) htd).2]
                        simp at h ⊢
                        first
                        | simpa [cons_append_cancel, List.append_left_inj] using h
                        | (cases br with
                           | nil => simp at h
                           | cons b0 brr => simpa [cons_append_cancel, List.append_left_inj] using h)
                      · by_cases hb2 : b = '+'
                        · subst hb2
                          simp only [List.cons_append] at h ⊢
                          rw [(tail_stable br (w0 :: ext) htd).1, (tail_stable br (w0 :: ext) htd).2]
                          simp at h ⊢
                          first
                          | simpa [cons_append_cancel, List.append_left_inj] using h
                          | (cases br with
                             | nil => simp at h
                             | cons b0 brr => simpa [cons_append_cancel, List.append_left_inj] using h)
                        · simp only [List.cons_append] at h ⊢
                          simp [hb1, hb2] at h ⊢
                          rw [show b :: (br ++ w0 :: ext) = (b :: br) ++ w0 :: ext from rfl,
                              (tail_stable (b :: br) (w0 :: ext) htd).1,
                              (tail_stable (b :: br) (w0 :: ext) htd).2]
                          simpa [cons_append_cancel, List.append_left_inj] using h
                  · simp [hce, hcE] at h ⊢
                    simpa [cons_append_cancel, List.append_left_inj] using h
            · 
              simp only [hD, List.cons_append] at h ⊢
              by_cases hce : d = 'e'
              · subst hce
                simp [hdot] at h ⊢
                cases dr with
                | nil =>
                  exfalso
                  simp at h
                | cons b br =>
                  by_cases hb1 : b = '-'
                  · subst hb1
                    simp only [List.cons_append] at h ⊢
                    rw [(tail_stable br (w0 :: ext) htd).1, (tail_stable br (w0 :: ext) htd).2]
                    simp at h ⊢
                    first
                    | simpa [cons_append_cancel, List.append_left_inj] using h
                    | (cases br with
                       | nil => simp at h
                       | cons b0 brr => simpa [cons_append_cancel, List.append_left_inj] using h)
                  · by_cases hb2 : b = '+'
                    · subst hb2
                      simp only [List.cons_append] at h ⊢
                      rw [(tail_stable br (w0 :: ext) htd).1, (tail_stable br (w0 :: ext) htd).2]
                      simp at h ⊢
                      first
                      | simpa [cons_append_cancel, List.append_left_inj] using h
                      | (cases br with
                         | nil => simp at h
                         | cons b0 brr => simpa [cons_append_cancel, List.append_left_inj] using h)
                    · simp only [List.cons_append] at h ⊢
                      simp [hb1, hb2] at h ⊢
                      rw [show b :: (br ++ w0 :: ext) = (b :: br) ++ w0 :: ext from rfl,
                          (tail_stable (b :: br) (w0 :: ext) htd).1,
                          (tail_stable (b :: br) (w0 :: ext) htd).2]
                      simpa [cons_append_cancel, List.append_left_inj] using h
              · by_cases hcE : d = 'E'
                · subst hcE
                  simp [hdot] at h ⊢
                  cases dr with
                  | nil =>
                    exfalso
                    simp at h
                  | cons b br =>
                    by_cases hb1 : b = '-'
                    · subst hb1
                      simp only [List.cons_append] at h ⊢
                      rw [(tail_stable br (w0 :: ext) htd).1, (tail_stable br (w0 :: ext) htd).2]
                      simp at h ⊢
                      first
                      | simpa [cons_append_cancel, List.append_left_inj] using h
                      | (cases br with
                         | nil => simp at h
                         | cons b0 brr => simpa [cons_append_cancel, List.append_left_inj] using h)
                    · by_cases hb2 : b = '+'
                      · subst hb2
                        simp only [List.cons_append] at h ⊢
                        rw [(tail_stable br (w0 :: ext) htd).1, (tail_stable br (w0 :: ext) htd).2]
                        simp at h ⊢
                        first
                        | simpa [cons_append_cancel, List.append_left_inj] using h
                        | (cases br with
                           | nil => simp at h
                           | cons b0 brr => simpa [cons_append_cancel, List.append_left_inj] using h)
                      · simp only [List.cons_append] at h ⊢
                        simp [hb1, hb2] at h ⊢
                        rw [show b :: (br ++ w0 :: ext) = (b :: br) ++ w0 :: ext from rfl,
                            (tail_stable (b :: br) (w0 :: ext) htd).1,
                            (tail_stable (b :: br) (w0 :: ext) htd).2]
                        simpa [cons_append_cancel, List.append_left_inj] using h
                · simp [hd, hce, hcE] at h ⊢
                  simpa [cons_append_cancel, List.append_left_inj] using h

theorem scan6_append (cs tl : List Char)
    (htl : ∀ c, tl.head? = some c → isWs c = true)
    (t : Nat) (sadd sport dadd dport : String) (len : Nat) (r6 : List Char)
    (h : scan6 cs = some (t, sadd, sport, dadd, dport, len, r6)) :
    scan6 (cs ++ tl) = some (t, sadd, sport, dadd, dport, len, r6 ++ tl) := by
  unfold scan6 at h ⊢
  cases hu1 : scanULL cs with
  | none => simp [hu1] at h
  | some p1 =>
    obtain ⟨t1, r1⟩ := p1
    simp only [hu1] at h
    cases hs1 : scanS31 r1 with
    | none => simp [hs1] at h
    | some q1 =>
      obtain ⟨a1, r2⟩ := q1
      simp only [hs1] at h
      cases hs2 : scanS31 r2 with
      | none => simp [hs2] at h
      | some q2 =>
        obtain ⟨b1, r3⟩ := q2
        simp only [hs2] at h
        cases hs3 : scanS31 r3 with
        | none => simp [hs3] at h
        | some q3 =>
          obtain ⟨c1, r4⟩ := q3
          simp only [hs3] at h
          cases hs4 : scanS31 r4 with
          | none => simp [hs4] at h
          | some q4 =>
            obtain ⟨d1, r5⟩ := q4
            simp only [hs4] at h
            cases hu2 : scanULL r5 with
            | none => simp [hu2] at h
            | some p2 =>
              obtain ⟨l1, r6a⟩ := p2
              simp only [hu2] at h
              simp only [scanULL_append cs tl t1 r1 htl hu1,
                scanS31_append r1 tl a1 r2 htl hs1,
                scanS31_append r2 tl b1 r3 htl hs2,
                scanS31_append r3 tl c1 r4 htl hs3,
                scanS31_append r4 tl d1 r5 htl hs4,
                scanULL_append r5 tl l1 r6a htl hu2]
              simp at h
              obtain ⟨ht, ha, hb, hc, hd, hl, hr⟩ := h
              rw [ht, ha, hb, hc, hd, hl, hr]

/-- C10: on a line whose first seven whitespace-separated fields parse as
a full 7-token arrival (the weight field converts), any whitespace-led
trailing text is silently ignored: the parser does not abort and returns
the same arrival as for the line without the extra text. -/
theorem c10_trailing_text_ignored (line : String) (w0 : Char) (ext : List Char)
    (hw : isWs w0 = true) (p : PacketInfo)
    (hok : parsePacket line = Except.ok p) (hsome : p.weight.isSome = true) :
    parsePacket (String.mk (line.data ++ w0 :: ext)) = Except.ok p := by
  have htl : ∀ c, (w0 :: ext).head? = some c → isWs c = true := by
    intro c hc
    cases Option.some.inj hc
    exact hw
  unfold parsePacket at hok ⊢
  cases h6 : scan6 line.data with
  | none =>
    simp [h6] at hok
  | some tup =>
    obtain ⟨t, a, b, c, d, len, r6⟩ := tup
    simp only [h6] at hok
    cases h7 : scanLF r6 with
    | none =>
      simp only [h7] at hok
      cases Except.ok.inj hok
      simp at hsome
    | some q =>
      obtain ⟨w, rem⟩ := q
      simp only [h7] at hok
      have h6a := scan6_append line.data (w0 :: ext) htl t a b c d len r6 h6
      have h7a := scanLF_append r6 (w0 :: ext) w rem htl h7
      simp only [show (String.mk (line.data ++ w0 :: ext)).data =
        line.data ++ w0 :: ext from rfl, h6a, h7a]
      exact hok

/-- C10 witness: a concrete 7-field line with trailing junk parses to the
same arrival as without it. -/
theorem c10_witness :
    isWs ' ' = true ∧
    parsePacket "0 a b c d 5 1.0" =
      Except.ok { time := 0, connection := "a b c d", length := 5, weight := some 1 } ∧
    ({ time := 0, connection := "a b c d", length := 5,
       weight := some 1 } : PacketInfo).weight.isSome = true ∧
    parsePacket (String.mk ("0 a b c d 5 1.0".data ++ ' ' :: "junk".data)) =
      Except.ok { time := 0, connection := "a b c d", length := 5, weight := some 1 } :=
  ⟨by decide, by with_unfolding_all decide, by decide,
   c10_trailing_text_ignored "0 a b c d 5 1.0" ' ' "junk".data (by decide) _
     (by with_unfolding_all decide) (by decide)⟩

/-- C9 counterexample: an eight-field line (neither 6 nor 7 fields) is
accepted, not rejected — `sscanf` stops after its seven conversions and
`PacketInfo::parse` never inspects the remainder of the line. -/
theorem c9_counterexample :
    fieldCount "0 a b c d 5 1.0 x" = 8 ∧
    parsePacket "0 a b c d 5 1.0 x" =
      Except.ok { time := 0, connection := "a b c d", length := 5, weight := some 1 } := by
  constructor
  · with_unfolding_all decide
  · with_unfolding_all decide

/-- C9 (amended): the parser aborts with the `"bad input line"` diagnostic
exactly when fewer than six conversions succeed; with six or more it
accepts the line; and on empty input the program terminates normally with
no output.  (Too few fields abort; extra fields beyond the seventh are
accepted, see the counterexample.) -/
theorem c9_malformed_line_aborts :
    (∀ line : String, scan6 line.data = none →
      parsePacket line = Except.error ("bad input line: " ++ line)) ∧
    (∀ line : String, scan6 line.data ≠ none →
      ∃ p, parsePacket line = Except.ok p) ∧
    (run 1 (initSched [])).2 = RunStatus.finished ∧
    (run 1 (initSched [])).1.log = [] := by
  refine ⟨?_, ?_, ?_, ?_⟩
  · intro line h
    unfold parsePacket
    simp only [h]
  · intro line h
    unfold parsePacket
    cases h6 : scan6 line.data with
    | none => exact absurd h6 h
    | some tup =>
      obtain ⟨t, a, b, c, d, len, r6⟩ := tup
      cases h7 : scanLF r6 with
      | none =>
        refine ⟨⟨t, mkConnection a b c d, len, none⟩, ?_⟩
        simp only [h6, h7]
      | some q =>
        obtain ⟨w, rem⟩ := q
        refine ⟨⟨t, mkConnection a b c d, len, some w⟩, ?_⟩
        simp only [h6, h7]
  · rfl
  · rfl

/-- C9 witness: a line on which no conversion succeeds aborts with the
diagnostic naming the line. -/
theorem c9_witness :
    scan6 "zzz".data = none ∧
    parsePacket "zzz" = Except.error ("bad input line: " ++ "zzz") :=
  ⟨by with_unfolding_all rfl,
   c9_malformed_line_aborts.1 "zzz" (by with_unfolding_all rfl)⟩
